import Mathlib

/-!
The broker resource registry of the C++ Actor Framework.

A shallow embedding of `libcaf_io/caf/io/abstract_broker.hpp`: the four
handle-indexed registries of a broker (`scribes_`, `doormen_`,
`datagram_sinks_`, `datagram_sources_`), the generic registry operations
(`valid`, `by_id`, `take`, `erase`, `close`) and the activity-token operations
(`halt`, `trigger`); of `libcaf_core/src/binary_serializer.cpp`: the raw
write `apply_raw`, `skip` and the writes of integers, strings and object
headers; and of `libcaf_core/src/actor_registry.cpp`: the id-keyed and the
name-keyed registry.

Member functions that mutate the broker take the broker state and return the
new state.  An iterator of a `std::unordered_map` is the position of an entry
in the list of entries; `end()` is `none`.
-/

namespace caf

/-! ## `std::unordered_map` -/

/-- A `std::unordered_map<K, V>`: a list of key/value entries in which no key
occurs twice. -/
structure unordered_map (K V : Type) where
  entries : List (K × V)
  unique : (entries.map Prod.fst).Nodup
  deriving DecidableEq

namespace unordered_map

variable {K V : Type}

/-- Position of the first entry of `l` whose key is `k`. -/
def find_pos [DecidableEq K] : List (K × V) → K → Option Nat
  | [], _ => none
  | e :: es, k => if e.1 = k then some 0 else (find_pos es k).map Nat.succ

/-- Overwrites the mapped value of the entry at position `i`. -/
def assign_pos : List (K × V) → Nat → V → List (K × V)
  | [], _, _ => []
  | e :: es, 0, v => (e.1, v) :: es
  | e :: es, i + 1, v => e :: assign_pos es i v

/-- The empty map. -/
def empty : unordered_map K V := ⟨[], List.nodup_nil⟩

/-- The call `m.find(k)`: an iterator to the entry with key `k`, or `none` for
`m.end()`. -/
def find [DecidableEq K] (m : unordered_map K V) (k : K) : Option Nat :=
  find_pos m.entries k

/-- The call `m.count(k)`: the number of entries with key `k`. -/
def count [DecidableEq K] (m : unordered_map K V) (k : K) : Nat :=
  (m.entries.filter (fun e => decide (e.1 = k))).length

/-- The call `m.size()`: the number of entries. -/
def size (m : unordered_map K V) : Nat := m.entries.length

/-- The expression `i->second` for an iterator `i` of `m`. -/
def second (m : unordered_map K V) (i : Nat) : Option V :=
  (m.entries[i]?).map Prod.snd

/-- The call `m.erase(i)` for an iterator `i` of `m`. -/
def erase (m : unordered_map K V) (i : Nat) : unordered_map K V :=
  ⟨m.entries.eraseIdx i,
    (m.unique).sublist ((List.eraseIdx_sublist m.entries i).map Prod.fst)⟩

/-- Assignment to the object `i->second` refers to, for an iterator `i`. -/
def assign (m : unordered_map K V) (i : Nat) (v : V) : unordered_map K V :=
  ⟨assign_pos m.entries i v, by
    have keys : ∀ (l : List (K × V)) (j : Nat),
        (assign_pos l j v).map Prod.fst = l.map Prod.fst := by
      intro l
      induction l with
      | nil => intro j; rfl
      | cons e es ih =>
        intro j
        cases j with
        | zero => rfl
        | succ j => simp [assign_pos, ih]
    rw [keys]
    exact m.unique⟩

/-- The value `find` followed by `second` yields: the mapped value of the
first entry of `l` with key `k`. -/
def value_at [DecidableEq K] (l : List (K × V)) (k : K) : Option V :=
  match find_pos l k with
  | none => none
  | some i => (l[i]?).map Prod.snd

/-- The entries left after `find` followed by `erase`. -/
def erase_found [DecidableEq K] (l : List (K × V)) (k : K) : List (K × V) :=
  match find_pos l k with
  | none => l
  | some i => l.eraseIdx i

/-- The entries left after `find` followed by an assignment to `second`. -/
def assign_found [DecidableEq K] (l : List (K × V)) (k : K) (v : V) : List (K × V) :=
  match find_pos l k with
  | none => l
  | some i => assign_pos l i v

end unordered_map

namespace io

/-! ## Handles and resources -/

/-- The four handle types `connection_handle`, `accept_handle`,
`datagram_sink_handle` and `datagram_source_handle`. -/
inductive handle_kind where
  | connection
  | accept
  | datagram_sink
  | datagram_source
  deriving DecidableEq, Repr

/-- A handle: its type and its numeric id (an `int64_t`). -/
structure handle where
  kind : handle_kind
  id : Int
  deriving DecidableEq, Repr

/-- The receive policy of a resource. -/
inductive receive_policy where
  | disabled
  | exactly (n : Nat)
  | at_most (n : Nat)
  | any_up_to (n : Nat)
  deriving DecidableEq, Repr

/-- Modelled from the spec: the per-endpoint state of a `scribe`, `doorman`,
`datagram_sink` or `datagram_source`, whose classes are declared outside the
header.  The spec gives all four the same shape: the owning handle, a read
buffer, a write buffer, a receive policy, the activity tokens (`none` is the
unbounded sentinel "unconditionally active", `some 0` is halted, `some n` is
"n more events") and the write-notification flag. -/
structure servant where
  hdl : Int
  read_buffer : List Nat
  write_buffer : List Nat
  policy : receive_policy
  activity_tokens_ : Option Nat
  write_notifications_enabled : Bool
  deriving DecidableEq, Repr

namespace servant

/-- Modelled from the spec: `halt()` of a resource "sets `activity_tokens = 0`". -/
def halt (s : servant) : servant := { s with activity_tokens_ := some 0 }

/-- Modelled from the spec: `trigger()` of a resource "sets `activity_tokens`
to unbounded". -/
def trigger (s : servant) : servant := { s with activity_tokens_ := none }

/-- Modelled from the spec: `trigger(n)` of a resource, for `n > 0`, "sets
`activity_tokens = n`". -/
def trigger_num (s : servant) (num : Nat) : servant :=
  { s with activity_tokens_ := some num }

/-- Modelled from the spec: `activity_tokens()` of a resource returns the
token state; the result is empty in the unconditional receive state. -/
def activity_tokens (s : servant) : Option Nat := s.activity_tokens_

end servant

/-! ## The broker -/

/-- The registries of an `abstract_broker` (its private members). -/
structure abstract_broker where
  scribes_ : unordered_map Int servant
  doormen_ : unordered_map Int servant
  datagram_sinks_ : unordered_map Int servant
  datagram_sources_ : unordered_map Int servant
  deriving DecidableEq

namespace abstract_broker

/-- The four overloads of `get_map`: the map that holds handles of the type
of `hdl`. -/
def get_map (b : abstract_broker) (hdl : handle) : unordered_map Int servant :=
  match hdl.kind with
  | .accept => b.doormen_
  | .connection => b.scribes_
  | .datagram_sink => b.datagram_sinks_
  | .datagram_source => b.datagram_sources_

/-- Assignment through the reference `get_map(hdl)` returns. -/
def set_map (b : abstract_broker) (hdl : handle)
    (m : unordered_map Int servant) : abstract_broker :=
  match hdl.kind with
  | .accept => { b with doormen_ := m }
  | .connection => { b with scribes_ := m }
  | .datagram_sink => { b with datagram_sinks_ := m }
  | .datagram_source => { b with datagram_sources_ := m }

/-- The member `valid(hdl)`: checks whether `hdl` is assigned to the broker,
`get_map(hdl).count(hdl) > 0`. -/
def valid (b : abstract_broker) (hdl : handle) : Bool :=
  decide ((b.get_map hdl).count hdl.id > 0)

/-- The member `erase(hdl)`: finds `hdl` in its map and erases the entry
found, if any. -/
def erase (b : abstract_broker) (hdl : handle) : abstract_broker :=
  let elements := b.get_map hdl
  match elements.find hdl.id with
  | some i => b.set_map hdl (elements.erase i)
  | none => b

/-- The member `num_connections()`: the number of open connections,
`scribes_.size()`. -/
def num_connections (b : abstract_broker) : Nat := b.scribes_.size

/-- The member `by_id(hdl)`: the resource identified by `hdl`, or `none`. -/
def by_id (b : abstract_broker) (hdl : handle) : Option servant :=
  let elements := b.get_map hdl
  match elements.find hdl.id with
  | none => none
  | some i => elements.second i

/-- The effect of a mutating member call on the reference `by_id(hdl)`
returned: the resource registered under `hdl` becomes `s`. -/
def store (b : abstract_broker) (hdl : handle) (s : servant) : abstract_broker :=
  let elements := b.get_map hdl
  match elements.find hdl.id with
  | none => b
  | some i => b.set_map hdl (elements.assign i s)

/-- The member `take(hdl)`: the pointer it returns (`none` for `nullptr`) and the broker
afterwards. -/
def take (b : abstract_broker) (hdl : handle) : Option servant × abstract_broker :=
  let elements := b.get_map hdl
  match elements.find hdl.id with
  | none => (none, b)
  | some i => (elements.second i, b.set_map hdl (elements.erase i))

/-- The member `halt(hdl)`: suspends activities on `hdl` unconditionally. -/
def halt (b : abstract_broker) (hdl : handle) : abstract_broker :=
  match b.by_id hdl with
  | some ref => b.store hdl ref.halt
  | none => b

/-- The member `trigger(hdl)`: allows activities on `hdl` unconditionally. -/
def trigger (b : abstract_broker) (hdl : handle) : abstract_broker :=
  match b.by_id hdl with
  | some ref => b.store hdl ref.trigger
  | none => b

/-- The member `trigger(hdl, num_events)`: allows `num_events` activities on
`hdl`.  With `num_events == 0` the call is ignored when the resource has any
number of activity tokens (`x` is engaged) and halts it otherwise, that is in
the unconditional receive state, where `!x` holds. -/
def trigger_num_events (b : abstract_broker) (hdl : handle) (num_events : Nat) :
    abstract_broker :=
  match b.by_id hdl with
  | none => b
  | some ref =>
    if num_events > 0 then
      b.store hdl (ref.trigger_num num_events)
    else
      let x := ref.activity_tokens
      if x.isNone then b.store hdl ref.halt else b

/-- The resource `s` is registered under `hdl`: the registry for handles of
the type of `hdl` holds the entry `(hdl, s)`. -/
def registered (b : abstract_broker) (hdl : handle) (s : servant) : Prop :=
  (hdl.id, s) ∈ (b.get_map hdl).entries

instance (b : abstract_broker) (hdl : handle) (s : servant) :
    Decidable (b.registered hdl s) :=
  inferInstanceAs (Decidable ((hdl.id, s) ∈ (b.get_map hdl).entries))

end abstract_broker

/-! ## Sample states -/

/-- A resource with handle id `id` and token state `tokens`, with empty
buffers. -/
def servant.fresh (id : Int) (tokens : Option Nat) : servant :=
  { hdl := id, read_buffer := [], write_buffer := [], policy := receive_policy.disabled,
    activity_tokens_ := tokens, write_notifications_enabled := false }

/-- A broker with three connections (unbounded, three tokens, halted) and
one acceptor whose id equals that of the first connection. -/
def sample_broker : abstract_broker :=
  { scribes_ := ⟨[(1, servant.fresh 1 none), (2, servant.fresh 2 (some 3)),
      (3, servant.fresh 3 (some 0))], by decide⟩
    doormen_ := ⟨[(1, servant.fresh 1 none)], by decide⟩
    datagram_sinks_ := unordered_map.empty
    datagram_sources_ := unordered_map.empty }

end io

end caf

/-! ## Closing, reading and cleanup -/

namespace caf.io

namespace abstract_broker

/-- The member `close(hdl)`: closes the connection or acceptor identified by
`hdl`; the result is the returned flag and the broker afterwards.  The member
`stop_reading` of the resource classes is declared outside the header and is
a parameter here. -/
def close (stop_reading : servant → servant) (b : abstract_broker) (hdl : handle) :
    Bool × abstract_broker :=
  match b.by_id hdl with
  | none => (false, b)
  | some x => (true, b.store hdl (stop_reading x))

/-- Modelled from the spec: `configure_read(hdl, config)` is only declared in
the header; it modifies the receive policy of the scribe registered under the
connection handle `hdl`. -/
def configure_read (b : abstract_broker) (hdl : Int) (config : receive_policy) :
    abstract_broker :=
  match b.by_id ⟨handle_kind.connection, hdl⟩ with
  | none => b
  | some x => b.store ⟨handle_kind.connection, hdl⟩ { x with policy := config }

/-- The registered resources of all four registries, each with its handle. -/
def resources (b : abstract_broker) : List (handle × servant) :=
  b.scribes_.entries.map (fun e => (⟨handle_kind.connection, e.1⟩, e.2))
    ++ b.doormen_.entries.map (fun e => (⟨handle_kind.accept, e.1⟩, e.2))
    ++ b.datagram_sinks_.entries.map (fun e => (⟨handle_kind.datagram_sink, e.1⟩, e.2))
    ++ b.datagram_sources_.entries.map (fun e => (⟨handle_kind.datagram_source, e.1⟩, e.2))

end abstract_broker

/-- Modelled from the spec: the event `new_data_msg{handle, bytes}` a scribe
enqueues into the mailbox of its broker. -/
structure new_data_msg where
  handle : Int
  buf : List Nat
  deriving DecidableEq, Repr

/-- Modelled from the spec: whether a read buffer holding `buffered` bytes
satisfies the receive policy.  "`exactly N`: wait for precisely N bytes;
`at-most N`: deliver whatever is available up to N, even if fewer; `any up to
N`: deliver as soon as ≥1 byte and ≤N are present". -/
def receive_policy.satisfied : receive_policy → Nat → Bool
  | receive_policy.disabled, _ => false
  | receive_policy.exactly n, buffered => decide (buffered = n)
  | receive_policy.at_most n, buffered => decide (buffered ≤ n)
  | receive_policy.any_up_to n, buffered => decide (1 ≤ buffered ∧ buffered ≤ n)

/-- Modelled from the spec: the read path of a scribe for one readiness
delivery of `bytes`, which lives outside the header.  "The Scribe appends into
`read_buffer` until the configured policy is satisfied.  On satisfaction, the
Scribe emits one `new_data_msg{handle, buffer}` into the Broker mailbox, then
clears/reuses the buffer for the next cycle, and decrements `activity_tokens`
if finite."  The tokens decide whether the multiplexer delivers at all, not
how a delivery is processed. -/
def servant.data_available (s : servant) (bytes : List Nat) :
    servant × List new_data_msg :=
  let buf := s.read_buffer ++ bytes
  if s.policy.satisfied buf.length = true then
    ({ s with read_buffer := [], activity_tokens_ := s.activity_tokens_.map (fun n => n - 1) },
      [{ handle := s.hdl, buf := buf }])
  else
    ({ s with read_buffer := buf }, [])

/-- Successive readiness deliveries: the scribe afterwards and the events
emitted, in order. -/
def servant.deliveries (s : servant) : List (List Nat) → servant × List new_data_msg
  | [] => (s, [])
  | bytes :: rest =>
    (((s.data_available bytes).1.deliveries rest).1,
      (s.data_available bytes).2 ++ ((s.data_available bytes).1.deliveries rest).2)

/-- Modelled from the spec: the part of the broker lifecycle `cleanup` acts
on.  A running broker owns its registries; `cleanup` "transitions
running→terminated", and a terminated broker owns no resource. -/
inductive broker_state where
  | running (registries : abstract_broker)
  | terminated
  deriving DecidableEq

namespace broker_state

/-- The resources a broker owns, each with its handle. -/
def resources : broker_state → List (handle × servant)
  | running registries => registries.resources
  | terminated => []

/-- Modelled from the spec: `cleanup(reason, host)`, which is only declared in
the header.  It "transitions running→terminated; must erase every resource in
all four registries, releasing each underlying OS resource exactly once;
returns whether cleanup actually performed work (calling twice is safe and the
second call is a no-op returning false)".  The result is the returned flag,
the resources released by the call and the broker afterwards. -/
def cleanup : broker_state → Bool × List (handle × servant) × broker_state
  | running registries => (true, registries.resources, terminated)
  | terminated => (false, [], terminated)

end broker_state

end caf.io

/-! ## The binary serializer -/

namespace caf

/-- The result type `error`; `none` is the default-constructed error. -/
inductive error where
  | none
  | code (value : Nat)
  deriving DecidableEq, Repr

/-- The call `v.insert(pos, first, last)` of a `std::vector<char>`: inserts the
range `xs` before position `pos`. -/
def vector_insert (v : List Nat) (pos : Nat) (xs : List Nat) : List Nat :=
  v.take pos ++ xs ++ v.drop pos

/-- The call `v.insert(pos, count, value)` of a `std::vector<char>`: inserts
`count` copies of `value` before position `pos`. -/
def vector_insert_fill (v : List Nat) (pos : Nat) (count : Nat) (value : Nat) : List Nat :=
  v.take pos ++ List.replicate count value ++ v.drop pos

/-- The call `memcpy(&v[pos], src, count)`: copies the first `count` bytes of
`src` over the bytes of `v` from position `pos` on, one by one. -/
def memcpy : List Nat → Nat → List Nat → Nat → List Nat
  | v, _, _, 0 => v
  | v, _, [], _ + 1 => v
  | v, pos, c :: src, count + 1 => memcpy (v.set pos c) (pos + 1) src count

/-- A `binary_serializer`: the buffer `buf_` it writes to and the write
position `write_pos_`, an iterator of `buf_` kept as its distance from
`buf_.begin()`. -/
structure binary_serializer where
  buf_ : List Nat
  write_pos_ : Nat
  deriving DecidableEq, Repr

namespace binary_serializer

/-- The member `seek(offset)`. -/
def seek (s : binary_serializer) (offset : Nat) : binary_serializer :=
  { s with write_pos_ := offset }

/-- The member `skip(num_bytes)`.  The distance `remaining` is not negative
for a write position inside the buffer. -/
def skip (s : binary_serializer) (num_bytes : Nat) : binary_serializer :=
  let last := s.buf_.length
  let remaining := last - s.write_pos_
  if remaining ≥ num_bytes then
    { s with write_pos_ := s.write_pos_ + num_bytes }
  else
    let buf := vector_insert_fill s.buf_ last (num_bytes - remaining) 0
    { buf_ := buf, write_pos_ := buf.length }

/-- The member `apply_raw(num_bytes, data)`; `data` holds the bytes `ptr`
points to.  The result is the returned error and the serializer afterwards. -/
def apply_raw (s : binary_serializer) (num_bytes : Nat) (data : List Nat) :
    error × binary_serializer :=
  let ptr := data
  let last := s.buf_.length
  if s.write_pos_ = last then
    let buf := vector_insert s.buf_ last (ptr.take num_bytes)
    (error.none, { buf_ := buf, write_pos_ := buf.length })
  else if s.write_pos_ + num_bytes < last then
    (error.none, { buf_ := memcpy s.buf_ s.write_pos_ ptr num_bytes,
                   write_pos_ := s.write_pos_ + num_bytes })
  else
    let remaining := last - s.write_pos_
    let copied := memcpy s.buf_ s.write_pos_ ptr remaining
    let buf := vector_insert copied last ((ptr.drop remaining).take (num_bytes - remaining))
    (error.none, { buf_ := buf, write_pos_ := buf.length })

/-- The overwrite-then-append write as the specification states it: the
bytes of the old buffer before the write position, then the data, then the
bytes of the old buffer behind the data, `b[0..p) ++ d ++ b[p+n..L)`. -/
def overwrite_then_append (b : List Nat) (p : Nat) (d : List Nat) : List Nat :=
  b.take p ++ d ++ b.drop (p + d.length)

end binary_serializer

end caf

/-! ## Integers, strings and objects in the binary serializer -/

namespace caf

/-- Modelled from the spec: `detail::to_network_order` is declared outside the
sources.  Its result `y` for a value `x` of `size` bytes is given by the bytes
`&y` points to, which are `x` in network byte order: the most significant
byte first. -/
def to_network_order : Nat → Nat → List Nat
  | 0, _ => []
  | size + 1, x => x / 256 ^ size % 256 :: to_network_order size x

/-- The number a byte sequence denotes when the most significant byte comes
first: the sum of `b_i * 256 ^ (n - 1 - i)`. -/
def network_value : List Nat → Nat
  | [] => 0
  | b :: bs => b * 256 ^ bs.length + network_value bs

/-- The conversion `static_cast<uintN_t>(x)` to an unsigned type of `bits`
bits: `x` modulo `2 ^ bits`. -/
def static_cast_unsigned (bits : Nat) (x : Int) : Nat := (x % 2 ^ bits).toNat

/-- The fixed-width integer types `apply_impl` is overloaded for. -/
inductive int_type where
  | int8
  | uint8
  | int16
  | uint16
  | int32
  | uint32
  | int64
  | uint64
  deriving DecidableEq, Repr

namespace int_type

/-- The value of `sizeof(T)`. -/
def size : int_type → Nat
  | int8 => 1
  | uint8 => 1
  | int16 => 2
  | uint16 => 2
  | int32 => 4
  | uint32 => 4
  | int64 => 8
  | uint64 => 8

/-- Whether the type is a signed type. -/
def is_signed : int_type → Bool
  | int8 => true
  | int16 => true
  | int32 => true
  | int64 => true
  | _ => false

/-- The unsigned type of the same width. -/
def to_unsigned : int_type → int_type
  | int8 => uint8
  | int16 => uint16
  | int32 => uint32
  | int64 => uint64
  | T => T

/-- The values of the type: `[0, 2^w)` for an unsigned and `[-2^(w-1),
2^(w-1))` for a signed type of `w = 8 * sizeof(T)` bits. -/
def in_range (T : int_type) (x : Int) : Prop :=
  if T.is_signed = true then
    -(2 ^ (8 * T.size - 1) : Int) ≤ x ∧ x < 2 ^ (8 * T.size - 1)
  else
    0 ≤ x ∧ x < 2 ^ (8 * T.size)

instance (T : int_type) (x : Int) : Decidable (T.in_range x) := by
  unfold in_range
  exact inferInstance

end int_type

namespace binary_serializer

/-- The function template `apply_int(bs, x)` for a type of `size` bytes. -/
def apply_int (bs : binary_serializer) (size : Nat) (x : Nat) :
    error × binary_serializer :=
  let y := to_network_order size x
  bs.apply_raw size y

/-- The overloads of `apply_impl` for the fixed-width integer types.  The
8-bit overloads pass `&x` itself: the one byte of `x`, which for an `int8_t`
is its value modulo 256. -/
def apply_impl (bs : binary_serializer) : int_type → Int → error × binary_serializer
  | int_type.int8, x => bs.apply_raw 1 [(x % 256).toNat]
  | int_type.uint8, x => bs.apply_raw 1 [x.toNat]
  | int_type.int16, x => apply_int bs 2 (static_cast_unsigned 16 x)
  | int_type.uint16, x => apply_int bs 2 x.toNat
  | int_type.int32, x => apply_int bs 4 (static_cast_unsigned 32 x)
  | int_type.uint32, x => apply_int bs 4 x.toNat
  | int_type.int64, x => apply_int bs 8 (static_cast_unsigned 64 x)
  | int_type.uint64, x => apply_int bs 8 x.toNat

/-- The member `end_object()`. -/
def end_object (bs : binary_serializer) : error × binary_serializer := (error.none, bs)

/-- The member `end_sequence()`. -/
def end_sequence (bs : binary_serializer) : error × binary_serializer := (error.none, bs)

/-- The member `begin_sequence(list_size)`; `apply(s)` of the base class
resolves to the overload of `apply_impl` for `uint32_t`. -/
def begin_sequence (bs : binary_serializer) (list_size : Nat) :
    error × binary_serializer :=
  let s := static_cast_unsigned 32 list_size
  apply_impl bs int_type.uint32 s

/-- Modelled from the spec: `error::eval` is declared outside the sources.  It
calls its arguments in order and returns the first error one of them
returns. -/
def error_eval :
    List (binary_serializer → error × binary_serializer) → binary_serializer →
      error × binary_serializer
  | [], bs => (error.none, bs)
  | f :: fs, bs =>
    match f bs with
    | (error.none, next) => error_eval fs next
    | (err, next) => (err, next)

/-- The overload of `apply_impl` for `std::string`; `x` holds the characters
of the string. -/
def apply_impl_string (bs : binary_serializer) (x : List Nat) :
    error × binary_serializer :=
  let str_size := x.length
  if str_size = 0 then
    error_eval [fun s => begin_sequence s str_size, fun s => end_sequence s] bs
  else
    let data := x
    error_eval [fun s => begin_sequence s str_size, fun s => apply_raw s str_size data,
      fun s => end_sequence s] bs

/-- The member `begin_object(nr, name)`; `apply` of the base class resolves to
the overloads of `apply_impl` for `uint16_t` and `std::string`. -/
def begin_object (bs : binary_serializer) (nr : Nat) (name : List Nat) :
    error × binary_serializer :=
  if nr ≠ 0 then
    apply_impl bs int_type.uint16 nr
  else
    match apply_impl bs int_type.uint16 nr with
    | (error.none, next) => apply_impl_string next name
    | (err, next) => (err, next)

end binary_serializer

end caf

/-! ## The actor registry -/

namespace caf

/-- The call `m.emplace(k, v)` of a `std::unordered_map`: inserts the entry
`(k, v)` unless an entry with key `k` exists; the result is the map afterwards
and whether the insertion took place. -/
def unordered_map.emplace {K V : Type} [DecidableEq K] (m : unordered_map K V) (k : K)
    (v : V) : unordered_map K V × Bool :=
  if h : k ∈ m.entries.map Prod.fst then
    (m, false)
  else
    (⟨(k, v) :: m.entries, List.nodup_cons.mpr ⟨h, m.unique⟩⟩, true)

/-- The maps of an `actor_registry`: `entries_` from actor ids and
`named_entries_` from names to `strong_actor_ptr`; a pointer is `none` for
`nullptr` and `some a` for a pointer to the actor `a`.  The locks that guard
the maps are left out: every member runs as a whole. -/
structure actor_registry where
  entries_ : unordered_map Nat (Option Nat)
  named_entries_ : unordered_map String (Option Nat)
  deriving DecidableEq

namespace actor_registry

/-- The member `get_impl(actor_id key)`. -/
def get_impl (r : actor_registry) (key : Nat) : Option Nat :=
  match r.entries_.find key with
  | some i => (r.entries_.second i).getD none
  | none => none

/-- The member `put_impl(actor_id key, strong_actor_ptr val)`: the registry
afterwards and the functor it attaches to an actor, if any, as the actor and
the key the functor erases on termination. -/
def put_impl (r : actor_registry) (key : Nat) (val : Option Nat) :
    actor_registry × Option (Nat × Nat) :=
  match val with
  | none => (r, none)
  | some a =>
    let res := r.entries_.emplace key val
    if res.2 = false then
      ({ r with entries_ := res.1 }, none)
    else
      ({ r with entries_ := res.1 }, some (a, key))

/-- The member `erase(actor_id key)`. -/
def erase (r : actor_registry) (key : Nat) : actor_registry :=
  match r.entries_.find key with
  | some i => { r with entries_ := r.entries_.erase i }
  | none => r

/-- The member `get_impl(const std::string& key)`. -/
def get_impl_name (r : actor_registry) (key : String) : Option Nat :=
  match r.named_entries_.find key with
  | none => none
  | some i => (r.named_entries_.second i).getD none

/-- The member `erase(const std::string& key)`. -/
def erase_name (r : actor_registry) (key : String) : actor_registry :=
  match r.named_entries_.find key with
  | some i => { r with named_entries_ := r.named_entries_.erase i }
  | none => r

/-- The member `put_impl(const std::string& key, strong_actor_ptr value)`. -/
def put_impl_name (r : actor_registry) (key : String) (value : Option Nat) :
    actor_registry :=
  if value = none then
    r.erase_name key
  else
    { r with named_entries_ := (r.named_entries_.emplace key value).1 }

/-- The member `named_actors()`: a copy of `named_entries_`. -/
def named_actors (r : actor_registry) : unordered_map String (Option Nat) :=
  r.named_entries_

/-- A registry with the actors 10 and 11 under the ids 1 and 2 and the actor
10 under the name "a". -/
def sample : actor_registry :=
  { entries_ := ⟨[(1, some 10), (2, some 11)], by decide⟩
    named_entries_ := ⟨[("a", some 10)], by decide⟩ }

end actor_registry

end caf

/-! ## Lemmas about `std::unordered_map` and the registries -/

namespace caf.unordered_map
variable {K V : Type} [DecidableEq K]

theorem value_at_nil (k : K) : value_at ([] : List (K × V)) k = none := rfl

theorem value_at_cons (e : K × V) (es : List (K × V)) (k : K) :
    value_at (e :: es) k = if e.1 = k then some e.2 else value_at es k := by
  unfold value_at
  by_cases h : e.1 = k
  · simp [find_pos, h]
  · simp only [find_pos, h, if_false]
    cases find_pos es k <;> simp

theorem erase_found_cons (e : K × V) (es : List (K × V)) (k : K) :
    erase_found (e :: es) k = if e.1 = k then es else e :: erase_found es k := by
  unfold erase_found
  by_cases h : e.1 = k
  · simp [find_pos, h]
  · simp only [find_pos, h, if_false]
    cases find_pos es k <;> simp

theorem find_pos_eq_none_iff (l : List (K × V)) (k : K) :
    find_pos l k = none ↔ k ∉ l.map Prod.fst := by
  induction l with
  | nil => simp [find_pos]
  | cons e es ih =>
    by_cases h : e.1 = k
    · simp [find_pos, h]
    · have h' : ¬ k = e.1 := fun hk => h hk.symm
      simp [find_pos, h, h', ih]

theorem value_at_eq_none_iff (l : List (K × V)) (k : K) :
    value_at l k = none ↔ k ∉ l.map Prod.fst := by
  induction l with
  | nil => simp [value_at_nil]
  | cons e es ih =>
    rw [value_at_cons]
    by_cases h : e.1 = k
    · simp [h]
    · have h' : ¬ k = e.1 := fun hk => h hk.symm
      simp [h, h', ih]

theorem value_at_eq_some_iff (l : List (K × V)) (hl : (l.map Prod.fst).Nodup)
    (k : K) (v : V) : value_at l k = some v ↔ (k, v) ∈ l := by
  induction l with
  | nil => simp [value_at_nil]
  | cons e es ih =>
    rw [value_at_cons]
    have hes : (es.map Prod.fst).Nodup := (List.nodup_cons.mp hl).2
    have hne : e.1 ∉ es.map Prod.fst := (List.nodup_cons.mp hl).1
    by_cases h : e.1 = k
    · simp only [h, if_true, List.mem_cons]
      constructor
      · intro hv
        left
        cases hv
        exact Prod.ext h.symm rfl
      · rintro (hv | hv)
        · rw [← hv]
        · exact absurd (List.mem_map_of_mem Prod.fst hv) (h ▸ hne)
    · simp only [h, if_false, List.mem_cons, ih hes]
      constructor
      · exact Or.inr
      · rintro (hv | hv)
        · exact absurd (congrArg Prod.fst hv).symm h
        · exact hv

theorem count_pos_iff (l : List (K × V)) (k : K) :
    0 < (l.filter (fun e => decide (e.1 = k))).length ↔ k ∈ l.map Prod.fst := by
  rw [List.length_pos_iff_exists_mem]
  simp only [List.mem_filter, decide_eq_true_eq, List.mem_map]

theorem erase_found_eq_filter (l : List (K × V)) (hl : (l.map Prod.fst).Nodup) (k : K) :
    erase_found l k = l.filter (fun e => decide (e.1 ≠ k)) := by
  induction l with
  | nil => rfl
  | cons e es ih =>
    rw [erase_found_cons]
    have hes : (es.map Prod.fst).Nodup := (List.nodup_cons.mp hl).2
    have hne : e.1 ∉ es.map Prod.fst := (List.nodup_cons.mp hl).1
    by_cases h : e.1 = k
    · simp only [h, if_true, ne_eq, not_true_eq_false, decide_False, List.filter_cons_of_neg,
        Bool.false_eq_true, not_false_eq_true]
      symm
      rw [List.filter_eq_self]
      intro a ha
      simp only [decide_eq_true_eq]
      intro hak
      exact hne (h ▸ hak ▸ List.mem_map_of_mem Prod.fst ha)
    · simp [h, ih hes]

theorem value_at_filter_self (l : List (K × V)) (k : K) :
    value_at (l.filter (fun e => decide (e.1 ≠ k))) k = none := by
  rw [value_at_eq_none_iff]
  simp [List.mem_filter]

theorem value_at_filter_ne (l : List (K × V)) (k k' : K) (h : k' ≠ k) :
    value_at (l.filter (fun e => decide (e.1 ≠ k))) k' = value_at l k' := by
  induction l with
  | nil => rfl
  | cons e es ih =>
    by_cases hk : e.1 = k
    · have hk' : ¬ e.1 = k' := fun h' => h (h' ▸ hk)
      rw [value_at_cons, if_neg hk', ← ih, List.filter_cons_of_neg]
      simpa using hk
    · simp only [ne_eq, hk, not_false_eq_true, decide_True, List.filter_cons_of_pos,
        value_at_cons]
      simp only [ne_eq] at ih
      rw [ih]

end caf.unordered_map

namespace caf.unordered_map
variable {K V : Type}

theorem ext_entries {m m' : unordered_map K V} (h : m.entries = m'.entries) : m = m' := by
  cases m; cases m'; cases h; rfl

variable [DecidableEq K]

theorem second_find (m : unordered_map K V) (k : K) :
    (match m.find k with
      | none => none
      | some i => m.second i) = value_at m.entries k := rfl

theorem erase_find_entries (m : unordered_map K V) (k : K) :
    (match m.find k with
      | none => m
      | some i => m.erase i).entries = erase_found m.entries k := by
  unfold find erase_found erase
  cases find_pos m.entries k <;> rfl

end caf.unordered_map

namespace caf.io.abstract_broker

open caf.unordered_map

theorem get_map_set_map_same (b : abstract_broker) (hdl hdl' : handle)
    (m : unordered_map Int servant) (h : hdl'.kind = hdl.kind) :
    (b.set_map hdl m).get_map hdl' = m := by
  unfold get_map set_map
  rw [h]
  cases hdl.kind <;> rfl

theorem get_map_set_map_other (b : abstract_broker) (hdl hdl' : handle)
    (m : unordered_map Int servant) (h : hdl'.kind ≠ hdl.kind) :
    (b.set_map hdl m).get_map hdl' = b.get_map hdl' := by
  unfold get_map set_map
  revert h
  cases hdl.kind <;> cases hdl'.kind <;> simp

theorem set_map_get_map (b : abstract_broker) (hdl : handle) :
    b.set_map hdl (b.get_map hdl) = b := by
  unfold get_map set_map
  cases hdl.kind <;> rfl

theorem by_id_eq_value_at (b : abstract_broker) (hdl : handle) :
    b.by_id hdl = value_at (b.get_map hdl).entries hdl.id := rfl

theorem take_fst (b : abstract_broker) (hdl : handle) :
    (b.take hdl).1 = b.by_id hdl := by
  simp only [take, by_id]
  cases (b.get_map hdl).find hdl.id <;> rfl

theorem take_snd (b : abstract_broker) (hdl : handle) :
    (b.take hdl).2 = b.erase hdl := by
  simp only [take, erase]
  cases (b.get_map hdl).find hdl.id <;> rfl

theorem erase_eq_set_map (b : abstract_broker) (hdl : handle) :
    b.erase hdl = b.set_map hdl
      (match (b.get_map hdl).find hdl.id with
        | none => b.get_map hdl
        | some i => (b.get_map hdl).erase i) := by
  simp only [erase]
  cases (b.get_map hdl).find hdl.id
  · exact (set_map_get_map b hdl).symm
  · rfl

theorem entries_erase_same (b : abstract_broker) (hdl hdl' : handle)
    (h : hdl'.kind = hdl.kind) :
    ((b.erase hdl).get_map hdl').entries
      = (b.get_map hdl).entries.filter (fun e => decide (e.1 ≠ hdl.id)) := by
  rw [erase_eq_set_map, get_map_set_map_same _ _ _ _ h, erase_find_entries,
    erase_found_eq_filter _ (b.get_map hdl).unique]

theorem get_map_erase_other (b : abstract_broker) (hdl hdl' : handle)
    (h : hdl'.kind ≠ hdl.kind) :
    (b.erase hdl).get_map hdl' = b.get_map hdl' := by
  rw [erase_eq_set_map, get_map_set_map_other _ _ _ _ h]

theorem by_id_erase_self (b : abstract_broker) (hdl : handle) :
    (b.erase hdl).by_id hdl = none := by
  rw [by_id_eq_value_at, entries_erase_same b hdl hdl rfl, value_at_filter_self]

theorem by_id_erase_ne (b : abstract_broker) (hdl hdl' : handle) (h : hdl' ≠ hdl) :
    (b.erase hdl).by_id hdl' = b.by_id hdl' := by
  by_cases hk : hdl'.kind = hdl.kind
  · have hid : hdl'.id ≠ hdl.id := by
      intro hid
      apply h
      cases hdl; cases hdl'
      simp_all
    have hm : b.get_map hdl' = b.get_map hdl := by
      unfold get_map
      rw [hk]
    rw [by_id_eq_value_at, entries_erase_same b hdl hdl' hk, value_at_filter_ne _ _ _ hid,
      by_id_eq_value_at, hm]
  · rw [by_id_eq_value_at, get_map_erase_other b hdl hdl' hk, by_id_eq_value_at]

theorem valid_iff_mem_keys (b : abstract_broker) (hdl : handle) :
    b.valid hdl = true ↔ hdl.id ∈ (b.get_map hdl).entries.map Prod.fst := by
  unfold valid unordered_map.count
  rw [decide_eq_true_eq]
  exact count_pos_iff _ _

theorem valid_eq_false_iff (b : abstract_broker) (hdl : handle) :
    b.valid hdl = false ↔ b.by_id hdl = none := by
  rw [by_id_eq_value_at, value_at_eq_none_iff, ← valid_iff_mem_keys]
  simp

theorem erase_of_not_valid (b : abstract_broker) (hdl : handle) (h : b.valid hdl = false) :
    b.erase hdl = b := by
  have hn : find_pos (b.get_map hdl).entries hdl.id = none := by
    rw [find_pos_eq_none_iff, ← valid_iff_mem_keys]
    simp [h]
  unfold erase unordered_map.find
  simp only [hn]

theorem by_id_eq_some_iff (b : abstract_broker) (hdl : handle) (s : servant) :
    b.by_id hdl = some s ↔ b.registered hdl s := by
  rw [by_id_eq_value_at]
  exact value_at_eq_some_iff _ (b.get_map hdl).unique _ _

end caf.io.abstract_broker

namespace caf.unordered_map
variable {K V : Type} [DecidableEq K]

theorem assign_found_cons (e : K × V) (es : List (K × V)) (k : K) (v : V) :
    assign_found (e :: es) k v
      = if e.1 = k then (e.1, v) :: es else e :: assign_found es k v := by
  unfold assign_found
  by_cases h : e.1 = k
  · simp [find_pos, h, assign_pos]
  · simp only [find_pos, h, if_false]
    cases find_pos es k <;> simp [assign_pos]

theorem value_at_assign_found_self (l : List (K × V)) (k : K) (v : V)
    (h : k ∈ l.map Prod.fst) : value_at (assign_found l k v) k = some v := by
  induction l with
  | nil => simp at h
  | cons e es ih =>
    rw [assign_found_cons]
    by_cases hk : e.1 = k
    · simp [hk, value_at_cons]
    · have hk' : ¬ k = e.1 := fun h' => hk h'.symm
      have hmem : k ∈ es.map Prod.fst := by
        simpa [hk'] using h
      simp [hk, value_at_cons, ih hmem]

theorem value_at_assign_found_ne (l : List (K × V)) (k k' : K) (v : V) (h : k' ≠ k) :
    value_at (assign_found l k v) k' = value_at l k' := by
  induction l with
  | nil => rfl
  | cons e es ih =>
    rw [assign_found_cons]
    by_cases hk : e.1 = k
    · have hk' : ¬ e.1 = k' := fun h' => h (h' ▸ hk)
      have hkk : ¬ k = k' := fun h' => h h'.symm
      simp [hk, value_at_cons, hkk]
    · simp [hk, value_at_cons, ih]

theorem assign_find_entries (m : unordered_map K V) (k : K) (v : V) :
    (match m.find k with
      | none => m
      | some i => m.assign i v).entries = assign_found m.entries k v := by
  unfold find assign_found assign
  cases find_pos m.entries k <;> rfl

end caf.unordered_map

namespace caf.io.abstract_broker

open caf.unordered_map

theorem store_eq_set_map (b : abstract_broker) (hdl : handle) (s : servant) :
    b.store hdl s = b.set_map hdl
      (match (b.get_map hdl).find hdl.id with
        | none => b.get_map hdl
        | some i => (b.get_map hdl).assign i s) := by
  simp only [store]
  cases (b.get_map hdl).find hdl.id
  · exact (set_map_get_map b hdl).symm
  · rfl

theorem by_id_store_self (b : abstract_broker) (hdl : handle) (r s : servant)
    (h : b.by_id hdl = some r) : (b.store hdl s).by_id hdl = some s := by
  have hmem : hdl.id ∈ (b.get_map hdl).entries.map Prod.fst := by
    rw [by_id_eq_value_at] at h
    by_contra hc
    rw [← value_at_eq_none_iff, h] at hc
    exact Option.noConfusion hc
  rw [by_id_eq_value_at, store_eq_set_map, get_map_set_map_same _ _ _ _ rfl,
    assign_find_entries]
  exact value_at_assign_found_self _ _ _ hmem

theorem by_id_store_ne (b : abstract_broker) (hdl hdl' : handle) (s : servant)
    (h : hdl' ≠ hdl) : (b.store hdl s).by_id hdl' = b.by_id hdl' := by
  by_cases hk : hdl'.kind = hdl.kind
  · have hid : hdl'.id ≠ hdl.id := by
      intro hid
      apply h
      cases hdl; cases hdl'
      simp_all
    have hm : b.get_map hdl' = b.get_map hdl := by
      unfold get_map
      rw [hk]
    rw [by_id_eq_value_at, store_eq_set_map, get_map_set_map_same _ _ _ _ hk,
      assign_find_entries, value_at_assign_found_ne _ _ _ _ hid, by_id_eq_value_at, hm]
  · rw [by_id_eq_value_at, store_eq_set_map, get_map_set_map_other _ _ _ _ hk,
      by_id_eq_value_at]

theorem valid_erase_self (b : abstract_broker) (hdl : handle) :
    (b.erase hdl).valid hdl = false :=
  (valid_eq_false_iff _ _).mpr (by_id_erase_self b hdl)

theorem valid_iff_isSome (b : abstract_broker) (hdl : handle) :
    b.valid hdl = true ↔ (b.by_id hdl).isSome = true := by
  have hf := valid_eq_false_iff b hdl
  cases hv : b.valid hdl <;> cases hb : b.by_id hdl <;> simp_all

theorem valid_iff_exists_registered (b : abstract_broker) (hdl : handle) :
    b.valid hdl = true ↔ ∃ s, b.registered hdl s := by
  rw [valid_iff_isSome, Option.isSome_iff_exists]
  exact exists_congr (by_id_eq_some_iff b hdl)

end caf.io.abstract_broker

/-! ## Lemmas about tokens, closing and the number of connections -/

namespace caf.unordered_map
variable {K V : Type} [DecidableEq K]

theorem find_pos_lt (l : List (K × V)) (k : K) (i : Nat) (h : find_pos l k = some i) :
    i < l.length := by
  induction l generalizing i with
  | nil => simp [find_pos] at h
  | cons e es ih =>
    by_cases hk : e.1 = k
    · simp [find_pos, hk] at h
      simp [← h]
    · simp only [find_pos, hk, if_false, Option.map_eq_some'] at h
      obtain ⟨j, hj, rfl⟩ := h
      simpa using ih j hj

theorem length_erase_found (l : List (K × V)) (k : K) (h : k ∈ l.map Prod.fst) :
    (erase_found l k).length + 1 = l.length := by
  unfold erase_found
  cases hf : find_pos l k with
  | none => exact absurd h ((find_pos_eq_none_iff l k).mp hf)
  | some i =>
    have hi := find_pos_lt l k i hf
    simp only [List.length_eraseIdx, hi, if_true]
    omega

end caf.unordered_map

namespace caf.io.abstract_broker

open caf.unordered_map

theorem store_of_by_id_none (b : abstract_broker) (hdl : handle) (s : servant)
    (h : b.by_id hdl = none) : b.store hdl s = b := by
  have hn : find_pos (b.get_map hdl).entries hdl.id = none := by
    rw [by_id_eq_value_at, value_at_eq_none_iff] at h
    exact (find_pos_eq_none_iff _ _).mpr h
  unfold store unordered_map.find
  simp only [hn]

theorem scribes_eq_get_map (b : abstract_broker) (id : Int) :
    b.scribes_ = b.get_map ⟨handle_kind.connection, id⟩ := rfl

theorem num_connections_erase_registered (b : abstract_broker) (hdl : handle)
    (hk : hdl.kind = handle_kind.connection) (hv : b.valid hdl = true) :
    (b.erase hdl).num_connections + 1 = b.num_connections := by
  have hm : ∀ c : abstract_broker, c.scribes_ = c.get_map hdl := by
    intro c
    unfold get_map
    rw [hk]
  unfold num_connections unordered_map.size
  rw [hm, hm, erase_eq_set_map, get_map_set_map_same _ _ _ _ rfl, erase_find_entries]
  exact length_erase_found _ _ ((valid_iff_mem_keys b hdl).mp hv)

theorem num_connections_erase_other (b : abstract_broker) (hdl : handle)
    (h : hdl.kind ≠ handle_kind.connection ∨ b.valid hdl = false) :
    (b.erase hdl).num_connections = b.num_connections := by
  rcases h with hk | hv
  · have hm : ∀ c : abstract_broker,
        c.scribes_ = c.get_map ⟨handle_kind.connection, 0⟩ := fun _ => rfl
    unfold num_connections
    rw [hm, hm, get_map_erase_other b hdl _ (fun h' => hk h'.symm)]
  · rw [erase_of_not_valid b hdl hv]

theorem ncard_valid_connections (b : abstract_broker) :
    Set.ncard {id : Int | b.valid ⟨handle_kind.connection, id⟩ = true}
      = b.num_connections := by
  have hs : {id : Int | b.valid ⟨handle_kind.connection, id⟩ = true}
      = ↑((b.scribes_.entries.map Prod.fst).toFinset) := by
    ext id
    simp only [Set.mem_setOf_eq, Finset.mem_coe, List.mem_toFinset]
    exact valid_iff_mem_keys b ⟨handle_kind.connection, id⟩
  rw [hs, Set.ncard_coe_Finset, List.toFinset_card_of_nodup b.scribes_.unique]
  simp [num_connections, unordered_map.size]

end caf.io.abstract_broker

/-! ## Lemmas about the binary serializer -/

namespace caf

theorem set_take_succ (v : List Nat) (pos c : Nat) (h : pos < v.length) :
    (v.set pos c).take (pos + 1) = v.take pos ++ [c] := by
  rw [List.set_eq_take_cons_drop c h]
  have hl : (v.take pos).length = pos := by
    rw [List.length_take]
    omega
  rw [List.take_append_eq_append_take, hl]
  simp [List.take_of_length_le, hl]

theorem memcpy_eq (v : List Nat) (pos : Nat) (src : List Nat) (count : Nat)
    (hv : pos + count ≤ v.length) (hs : count ≤ src.length) :
    memcpy v pos src count = v.take pos ++ src.take count ++ v.drop (pos + count) := by
  induction count generalizing v pos src with
  | zero => simp [memcpy]
  | succ count ih =>
    cases src with
    | nil => simp at hs
    | cons c src =>
      have hlen : (v.set pos c).length = v.length := List.length_set _ _ _
      rw [memcpy, ih (v.set pos c) (pos + 1) src (by rw [hlen]; omega)
        (by simpa using hs), set_take_succ v pos c (by omega),
        List.drop_set_of_lt c v (by omega)]
      have : pos + 1 + count = pos + (count + 1) := by omega
      rw [this]
      simp

theorem length_overwrite_then_append (b : List Nat) (p : Nat) (d : List Nat)
    (hp : p ≤ b.length) :
    (binary_serializer.overwrite_then_append b p d).length
      = max b.length (p + d.length) := by
  unfold binary_serializer.overwrite_then_append
  simp only [List.length_append, List.length_take, List.length_drop]
  omega

theorem vector_insert_end (v xs : List Nat) : vector_insert v v.length xs = v ++ xs := by
  simp [vector_insert]

theorem apply_raw_eq (b : List Nat) (p n : Nat) (d : List Nat)
    (hp : p ≤ b.length) (hd : d.length = n) :
    binary_serializer.apply_raw { buf_ := b, write_pos_ := p } n d
      = (error.none,
          { buf_ := binary_serializer.overwrite_then_append b p d, write_pos_ := p + n }) := by
  subst hd
  unfold binary_serializer.apply_raw binary_serializer.overwrite_then_append
  by_cases h1 : p = b.length
  · subst h1
    simp [vector_insert]
  · by_cases h2 : p + d.length < b.length
    · simp only [h1, h2, if_false, if_true]
      rw [memcpy_eq b p d d.length (by omega) (le_refl _)]
      simp
    · simp only [h1, h2, if_false]
      have hr : b.length - p ≤ d.length := by omega
      have e1 : p + (b.length - p) = b.length := by omega
      have hcopied : memcpy b p d (b.length - p) = b.take p ++ d.take (b.length - p) := by
        rw [memcpy_eq b p d (b.length - p) (by omega) hr, e1, List.drop_length,
          List.append_nil]
      have hlen : (b.take p ++ d.take (b.length - p)).length = b.length := by
        simp only [List.length_append, List.length_take]
        omega
      have hrest : (d.drop (b.length - p)).take (d.length - (b.length - p))
          = d.drop (b.length - p) :=
        List.take_of_length_le (by simp)
      have hdrop : b.drop (p + d.length) = [] := List.drop_of_length_le (by omega)
      have hbuf : vector_insert (memcpy b p d (b.length - p)) b.length
          ((d.drop (b.length - p)).take (d.length - (b.length - p))) = b.take p ++ d := by
        rw [hcopied, hrest]
        nth_rewrite 2 [← hlen]
        rw [vector_insert_end, List.append_assoc, List.take_append_drop]
      rw [hbuf, hdrop, List.append_nil]
      have hmin : (b.take p ++ d).length = p + d.length := by
        simp only [List.length_append, List.length_take]
        omega
      rw [hmin]

theorem skip_eq (b : List Nat) (p n : Nat) (hp : p ≤ b.length) :
    binary_serializer.skip { buf_ := b, write_pos_ := p } n
      = { buf_ := b ++ List.replicate (p + n - b.length) 0, write_pos_ := p + n } := by
  unfold binary_serializer.skip
  by_cases h : b.length - p ≥ n
  · have h0 : p + n - b.length = 0 := by omega
    simp [h, h0]
  · have e : n - (b.length - p) = p + n - b.length := by omega
    simp only [h, if_false, vector_insert_fill, List.take_length, List.drop_length,
      List.append_nil, e, List.length_append, List.length_replicate]
    congr 1
    omega

end caf

/-! ## Lemmas about the read path and cleanup -/

namespace caf.io

theorem data_available_below (s : servant) (n : Nat) (bytes : List Nat)
    (hp : s.policy = receive_policy.exactly n)
    (h : s.read_buffer.length + bytes.length ≠ n) :
    s.data_available bytes = ({ s with read_buffer := s.read_buffer ++ bytes }, []) := by
  unfold servant.data_available
  simp [hp, receive_policy.satisfied, h]

theorem data_available_reach (s : servant) (n : Nat) (bytes : List Nat)
    (hp : s.policy = receive_policy.exactly n)
    (h : s.read_buffer.length + bytes.length = n) :
    s.data_available bytes
      = ({ s with read_buffer := [],
                  activity_tokens_ := s.activity_tokens_.map (fun k => k - 1) },
          [{ handle := s.hdl, buf := s.read_buffer ++ bytes }]) := by
  unfold servant.data_available
  simp [hp, receive_policy.satisfied, h]

theorem deliveries_below (s : servant) (n : Nat) (chunks : List (List Nat))
    (hp : s.policy = receive_policy.exactly n)
    (h : s.read_buffer.length + chunks.flatten.length < n) :
    s.deliveries chunks
      = ({ s with read_buffer := s.read_buffer ++ chunks.flatten }, []) := by
  induction chunks generalizing s with
  | nil => simp [servant.deliveries]
  | cons c cs ih =>
    have hlen : s.read_buffer.length + c.length + cs.flatten.length < n := by
      simpa [List.flatten_cons, Nat.add_assoc] using h
    rw [servant.deliveries, data_available_below s n c hp (by omega)]
    have hs := ih { s with read_buffer := s.read_buffer ++ c } hp
      (by simpa [List.length_append] using hlen)
    simp only [hs, List.append_nil, List.flatten_cons, List.append_assoc]

theorem deliveries_reach (s : servant) (n : Nat) (chunks : List (List Nat))
    (hp : s.policy = receive_policy.exactly n) (hn : 0 < n)
    (hlt : s.read_buffer.length < n)
    (h : s.read_buffer.length + chunks.flatten.length = n) :
    (s.deliveries chunks).2
        = [{ handle := s.hdl, buf := s.read_buffer ++ chunks.flatten }] ∧
    (s.deliveries chunks).1.read_buffer = [] := by
  induction chunks generalizing s with
  | nil =>
    simp only [List.flatten_nil, List.length_nil, Nat.add_zero] at h
    omega
  | cons c cs ih =>
    have hlen : s.read_buffer.length + c.length + cs.flatten.length = n := by
      simpa [List.flatten_cons, Nat.add_assoc] using h
    by_cases hc : s.read_buffer.length + c.length = n
    · have hcs : cs.flatten = [] := List.eq_nil_of_length_eq_zero (by omega)
      rw [servant.deliveries, data_available_reach s n c hp hc]
      have hrest := deliveries_below
        { s with read_buffer := [],
                 activity_tokens_ := s.activity_tokens_.map (fun k => k - 1) } n cs hp
        (by simp [hcs, hn])
      simp only [hrest, hcs, List.append_nil, List.flatten_cons, and_self]
    · rw [servant.deliveries, data_available_below s n c hp hc]
      have hs := ih { s with read_buffer := s.read_buffer ++ c } hp
        (by simp only [List.length_append]; omega)
        (by simpa [List.length_append] using hlen)
      simp only [hs, List.nil_append, List.flatten_cons, List.append_assoc, and_self]

theorem by_id_configure_read (b : abstract_broker) (id : Int) (r : servant)
    (config : receive_policy) (h : b.registered ⟨handle_kind.connection, id⟩ r) :
    (b.configure_read id config).by_id ⟨handle_kind.connection, id⟩
      = some { r with policy := config } := by
  have hb := (abstract_broker.by_id_eq_some_iff b _ r).mpr h
  have he : b.configure_read id config
      = b.store ⟨handle_kind.connection, id⟩ { r with policy := config } := by
    simp [abstract_broker.configure_read, hb]
  rw [he]
  exact abstract_broker.by_id_store_self b _ r _ hb

end caf.io

namespace caf.io.abstract_broker

theorem nodup_tagged (k : handle_kind) (m : unordered_map Int servant) :
    (m.entries.map (fun e => ((⟨k, e.1⟩ : handle), e.2))).Nodup := by
  apply List.Nodup.of_map (fun x : handle × servant => x.1.id)
  rw [List.map_map]
  exact m.unique

theorem kind_of_mem_tagged (k : handle_kind) (m : unordered_map Int servant)
    (x : handle × servant)
    (hx : x ∈ m.entries.map (fun e => ((⟨k, e.1⟩ : handle), e.2))) : x.1.kind = k := by
  obtain ⟨e, _, rfl⟩ := List.mem_map.mp hx
  rfl

theorem mem_tagged_iff (k : handle_kind) (m : unordered_map Int servant)
    (hdl : handle) (r : servant) :
    (hdl, r) ∈ m.entries.map (fun e => ((⟨k, e.1⟩ : handle), e.2))
      ↔ hdl.kind = k ∧ (hdl.id, r) ∈ m.entries := by
  constructor
  · intro hx
    obtain ⟨e, he, heq⟩ := List.mem_map.mp hx
    have h1 : hdl = ⟨k, e.1⟩ := (congrArg Prod.fst heq).symm
    have h2 : r = e.2 := (congrArg Prod.snd heq).symm
    subst h1 h2
    exact ⟨rfl, he⟩
  · rintro ⟨hk, he⟩
    refine List.mem_map.mpr ⟨(hdl.id, r), he, ?_⟩
    cases hdl
    simp_all

theorem nodup_resources (b : abstract_broker) : b.resources.Nodup := by
  unfold resources
  have disj : ∀ (k k' : handle_kind) (m m' : unordered_map Int servant), k ≠ k' →
      ∀ x, x ∈ m.entries.map (fun e => ((⟨k, e.1⟩ : handle), e.2)) →
        x ∈ m'.entries.map (fun e => ((⟨k', e.1⟩ : handle), e.2)) → False := by
    intro k k' m m' hne x h1 h2
    exact hne ((kind_of_mem_tagged k m x h1).symm.trans (kind_of_mem_tagged k' m' x h2))
  refine List.Nodup.append (List.Nodup.append (List.Nodup.append
    (nodup_tagged _ _) (nodup_tagged _ _) ?_) (nodup_tagged _ _) ?_) (nodup_tagged _ _) ?_
  · intro x h1 h2
    exact disj _ _ _ _ (by decide) x h1 h2
  · intro x h1 h2
    rcases List.mem_append.mp h1 with h | h
    · exact disj _ _ _ _ (by decide) x h h2
    · exact disj _ _ _ _ (by decide) x h h2
  · intro x h1 h2
    rcases List.mem_append.mp h1 with h | h
    · rcases List.mem_append.mp h with h | h
      · exact disj _ _ _ _ (by decide) x h h2
      · exact disj _ _ _ _ (by decide) x h h2
    · exact disj _ _ _ _ (by decide) x h h2

theorem mem_resources_iff (b : abstract_broker) (hdl : handle) (r : servant) :
    (hdl, r) ∈ b.resources ↔ b.registered hdl r := by
  unfold resources registered get_map
  simp only [List.mem_append, mem_tagged_iff]
  cases hk : hdl.kind <;> simp

end caf.io.abstract_broker

/-! ## Lemmas about integers and strings in the binary serializer -/

namespace caf

theorem length_to_network_order (size x : Nat) : (to_network_order size x).length = size := by
  induction size with
  | zero => rfl
  | succ size ih => simp [to_network_order, ih]

theorem to_network_order_lt (size x byte : Nat) (h : byte ∈ to_network_order size x) :
    byte < 256 := by
  induction size with
  | zero => simp [to_network_order] at h
  | succ size ih =>
    simp only [to_network_order, List.mem_cons] at h
    rcases h with h | h
    · rw [h]
      exact Nat.mod_lt _ (by decide)
    · exact ih h

theorem network_value_to_network_order (size x : Nat) :
    network_value (to_network_order size x) = x % 256 ^ size := by
  induction size with
  | zero => simp [to_network_order, network_value, Nat.mod_one]
  | succ size ih =>
    rw [to_network_order, network_value, length_to_network_order, ih, Nat.pow_succ,
      Nat.mod_mul]
    rw [Nat.add_comm, Nat.mul_comm]

theorem to_network_order_injective (size x y : Nat) (hx : x < 256 ^ size)
    (hy : y < 256 ^ size) (h : to_network_order size x = to_network_order size y) :
    x = y := by
  have hv := congrArg network_value h
  rwa [network_value_to_network_order, network_value_to_network_order,
    Nat.mod_eq_of_lt hx, Nat.mod_eq_of_lt hy] at hv

theorem static_cast_unsigned_lt (bits : Nat) (x : Int) :
    static_cast_unsigned bits x < 2 ^ bits := by
  unfold static_cast_unsigned
  have hpos : (0 : Int) < 2 ^ bits := by positivity
  have h1 := Int.emod_lt_of_pos x hpos
  have h0 := Int.emod_nonneg x (ne_of_gt hpos)
  rw [Int.toNat_lt h0]
  push_cast
  exact h1

theorem static_cast_unsigned_of_nonneg (bits : Nat) (x : Int) (h0 : 0 ≤ x)
    (h1 : x < 2 ^ bits) : static_cast_unsigned bits x = x.toNat := by
  unfold static_cast_unsigned
  rw [Int.emod_eq_of_lt h0 h1]

theorem to_network_order_one (x : Nat) (h : x < 256) : to_network_order 1 x = [x] := by
  simp [to_network_order, Nat.mod_eq_of_lt h]

end caf

namespace caf

theorem in_range_unsigned (T : int_type) (x : Int) (hs : T.is_signed = false)
    (hx : T.in_range x) : 0 ≤ x ∧ x < 2 ^ (8 * T.size) := by
  unfold int_type.in_range at hx
  simpa [hs] using hx

theorem in_range_signed (T : int_type) (x : Int) (hs : T.is_signed = true)
    (hx : T.in_range x) :
    -(2 ^ (8 * T.size - 1) : Int) ≤ x ∧ x < 2 ^ (8 * T.size - 1) := by
  unfold int_type.in_range at hx
  simpa [hs] using hx

theorem static_cast_unsigned_cast (bits : Nat) (x : Int) :
    ((static_cast_unsigned bits x : Nat) : Int) = x % 2 ^ bits := by
  unfold static_cast_unsigned
  have hpos : (0 : Int) < 2 ^ bits := by positivity
  exact Int.toNat_of_nonneg (Int.emod_nonneg x (ne_of_gt hpos))

theorem static_cast_unsigned_idem (bits : Nat) (x : Int) :
    static_cast_unsigned bits (static_cast_unsigned bits x : Nat)
      = static_cast_unsigned bits x := by
  have h := static_cast_unsigned_lt bits x
  rw [static_cast_unsigned_of_nonneg bits _ (Int.natCast_nonneg _) (by exact_mod_cast h)]
  simp

theorem in_range_to_unsigned (T : int_type) (x : Int) :
    T.to_unsigned.in_range (static_cast_unsigned (8 * T.size) x : Nat) := by
  have h := static_cast_unsigned_lt (8 * T.size) x
  have hc : ((static_cast_unsigned (8 * T.size) x : Nat) : Int) < 2 ^ (8 * T.size) := by
    exact_mod_cast h
  cases T <;>
    simp only [int_type.in_range, int_type.to_unsigned, int_type.is_signed, int_type.size,
      Bool.false_eq_true, if_false] at hc ⊢ <;>
    exact ⟨Int.natCast_nonneg _, hc⟩

theorem size_to_unsigned (T : int_type) : T.to_unsigned.size = T.size := by
  cases T <;> rfl

theorem static_cast_unsigned_injective (T : int_type) (x y : Int) (hx : T.in_range x)
    (hy : T.in_range y)
    (h : static_cast_unsigned (8 * T.size) x = static_cast_unsigned (8 * T.size) y) :
    x = y := by
  have hc : x % 2 ^ (8 * T.size) = y % 2 ^ (8 * T.size) := by
    rw [← static_cast_unsigned_cast, ← static_cast_unsigned_cast, h]
  cases T <;>
    simp only [int_type.in_range, int_type.is_signed, int_type.size, if_true,
      Bool.false_eq_true, if_false] at hx hy hc <;>
    norm_num at hx hy hc <;>
    omega

theorem apply_impl_eq_apply_raw (bs : binary_serializer) (T : int_type) (x : Int)
    (hx : T.in_range x) :
    bs.apply_impl T x
      = bs.apply_raw T.size
          (to_network_order T.size (static_cast_unsigned (8 * T.size) x)) := by
  cases hs : T.is_signed
  · have hr := in_range_unsigned T x hs hx
    have hc := static_cast_unsigned_of_nonneg (8 * T.size) x hr.1 hr.2
    rw [hc]
    have hlt : x.toNat < 2 ^ (8 * T.size) := by
      rw [← hc]
      exact static_cast_unsigned_lt _ _
    cases T <;> first
      | exact Bool.noConfusion hs
      | rfl
      | (simp only [int_type.size] at hlt ⊢
         rw [to_network_order_one _ (by simpa using hlt)]
         rfl)
  · cases T <;> first
      | exact Bool.noConfusion hs
      | rfl
      | (simp only [int_type.size]
         rw [to_network_order_one _ (static_cast_unsigned_lt 8 x)]
         rfl)

theorem overwrite_then_append_injective (b : List Nat) (p : Nat) (d e : List Nat)
    (hl : d.length = e.length)
    (h : binary_serializer.overwrite_then_append b p d
      = binary_serializer.overwrite_then_append b p e) : d = e := by
  unfold binary_serializer.overwrite_then_append at h
  rw [hl, List.append_assoc, List.append_assoc] at h
  exact List.append_cancel_right (List.append_cancel_left h)

theorem apply_impl_eq (T : int_type) (x : Int) (b : List Nat) (p : Nat)
    (hp : p ≤ b.length) (hx : T.in_range x) :
    binary_serializer.apply_impl { buf_ := b, write_pos_ := p } T x
      = (error.none,
          { buf_ := binary_serializer.overwrite_then_append b p
              (to_network_order T.size (static_cast_unsigned (8 * T.size) x)),
            write_pos_ := p + T.size }) := by
  rw [apply_impl_eq_apply_raw _ T x hx]
  exact apply_raw_eq b p T.size _ hp (length_to_network_order _ _)

theorem apply_impl_injective (T : int_type) (x y : Int) (b : List Nat) (p : Nat)
    (hp : p ≤ b.length) (hx : T.in_range x) (hy : T.in_range y)
    (h : binary_serializer.apply_impl { buf_ := b, write_pos_ := p } T y
      = binary_serializer.apply_impl { buf_ := b, write_pos_ := p } T x) : y = x := by
  rw [apply_impl_eq T x b p hp hx, apply_impl_eq T y b p hp hy] at h
  have hb := congrArg (fun r => r.2.buf_) h
  have hbytes := overwrite_then_append_injective b p _ _
    (by rw [length_to_network_order, length_to_network_order]) hb
  have hpow : 256 ^ T.size = 2 ^ (8 * T.size) := by
    rw [Nat.pow_mul]
  have hv := to_network_order_injective T.size _ _
    (by rw [hpow]; exact static_cast_unsigned_lt _ y)
    (by rw [hpow]; exact static_cast_unsigned_lt _ x) hbytes
  exact static_cast_unsigned_injective T y x hy hx hv

end caf

namespace caf

theorem static_cast_unsigned_natCast (bits n : Nat) :
    static_cast_unsigned bits (n : Int) = n % 2 ^ bits := by
  unfold static_cast_unsigned
  have h : ((n : Int) % 2 ^ bits) = ((n % 2 ^ bits : Nat) : Int) := by
    push_cast
    rfl
  rw [h, Int.toNat_ofNat]

theorem overwrite_then_append_end (b d : List Nat) :
    binary_serializer.overwrite_then_append b b.length d = b ++ d := by
  unfold binary_serializer.overwrite_then_append
  rw [List.take_length, List.drop_of_length_le (by omega), List.append_nil]

theorem begin_sequence_eq (b : List Nat) (p list_size : Nat) (hp : p ≤ b.length) :
    binary_serializer.begin_sequence { buf_ := b, write_pos_ := p } list_size
      = (error.none,
          { buf_ := binary_serializer.overwrite_then_append b p
              (to_network_order 4 (list_size % 2 ^ 32)),
            write_pos_ := p + 4 }) := by
  unfold binary_serializer.begin_sequence
  have hr : int_type.uint32.in_range (static_cast_unsigned 32 (list_size : Int) : Nat) :=
    in_range_to_unsigned int_type.uint32 list_size
  have h := apply_impl_eq int_type.uint32 _ b p hp hr
  simp only [int_type.size] at h
  rw [static_cast_unsigned_idem 32, static_cast_unsigned_natCast] at h
  exact h

theorem apply_impl_string_end (b x : List Nat) :
    binary_serializer.apply_impl_string { buf_ := b, write_pos_ := b.length } x
      = (error.none,
          { buf_ := b ++ to_network_order 4 (x.length % 2 ^ 32) ++ x,
            write_pos_ := b.length + (4 + x.length) }) := by
  have hseq := begin_sequence_eq b b.length x.length (le_refl _)
  rw [overwrite_then_append_end] at hseq
  have hlen : (b ++ to_network_order 4 (x.length % 2 ^ 32)).length = b.length + 4 := by
    rw [List.length_append, length_to_network_order]
  unfold binary_serializer.apply_impl_string
  by_cases h0 : x.length = 0
  · have hx : x = [] := List.eq_nil_of_length_eq_zero h0
    subst hx
    simp only [List.length_nil, if_true, binary_serializer.error_eval] at hseq ⊢
    rw [hseq]
    simp [binary_serializer.end_sequence]
  · have hraw := apply_raw_eq (b ++ to_network_order 4 (x.length % 2 ^ 32)) (b.length + 4)
      x.length x (by rw [hlen]) rfl
    rw [← hlen, overwrite_then_append_end, hlen] at hraw
    simp only [h0, if_false, binary_serializer.error_eval, hseq, hraw,
      binary_serializer.end_sequence, Nat.add_assoc]

theorem to_network_order_zero (size : Nat) :
    to_network_order size 0 = List.replicate size 0 := by
  induction size with
  | zero => rfl
  | succ size ih => simp [to_network_order, ih, List.replicate_succ]

end caf

/-! ## Lemmas about the actor registry -/

namespace caf.unordered_map
variable {K V : Type} [DecidableEq K]

theorem emplace_of_mem (m : unordered_map K V) (k : K) (v : V)
    (h : k ∈ m.entries.map Prod.fst) : m.emplace k v = (m, false) := by
  unfold emplace
  rw [dif_pos h]

theorem emplace_of_not_mem (m : unordered_map K V) (k : K) (v : V)
    (h : k ∉ m.entries.map Prod.fst) :
    (m.emplace k v).1.entries = (k, v) :: m.entries ∧ (m.emplace k v).2 = true := by
  unfold emplace
  rw [dif_neg h]
  exact ⟨rfl, rfl⟩

theorem value_at_emplace_self (m : unordered_map K V) (k : K) (v : V)
    (h : k ∉ m.entries.map Prod.fst) : value_at (m.emplace k v).1.entries k = some v := by
  rw [(emplace_of_not_mem m k v h).1, value_at_cons]
  simp

theorem value_at_emplace_ne (m : unordered_map K V) (k other : K) (v : V)
    (hne : other ≠ k) :
    value_at (m.emplace k v).1.entries other = value_at m.entries other := by
  by_cases h : k ∈ m.entries.map Prod.fst
  · rw [emplace_of_mem m k v h]
  · rw [(emplace_of_not_mem m k v h).1, value_at_cons]
    have hk : ¬ k = other := fun h' => hne h'.symm
    simp [hk]

theorem value_at_erase_self (m : unordered_map K V) (k : K) :
    value_at (match m.find k with
      | none => m
      | some i => m.erase i).entries k = none := by
  rw [erase_find_entries, erase_found_eq_filter _ m.unique, value_at_filter_self]

theorem value_at_erase_ne (m : unordered_map K V) (k other : K) (hne : other ≠ k) :
    value_at (match m.find k with
      | none => m
      | some i => m.erase i).entries other = value_at m.entries other := by
  rw [erase_find_entries, erase_found_eq_filter _ m.unique, value_at_filter_ne _ _ _ hne]

end caf.unordered_map

namespace caf.actor_registry

open caf.unordered_map

theorem get_impl_eq (r : actor_registry) (key : Nat) :
    r.get_impl key = (value_at r.entries_.entries key).getD none := by
  unfold get_impl value_at unordered_map.find unordered_map.second
  cases find_pos r.entries_.entries key <;> rfl

theorem get_impl_name_eq (r : actor_registry) (key : String) :
    r.get_impl_name key = (value_at r.named_entries_.entries key).getD none := by
  unfold get_impl_name value_at unordered_map.find unordered_map.second
  cases find_pos r.named_entries_.entries key <;> rfl

theorem erase_eq (r : actor_registry) (key : Nat) :
    r.erase key = { r with entries_ := match r.entries_.find key with
      | none => r.entries_
      | some i => r.entries_.erase i } := by
  unfold erase
  cases r.entries_.find key <;> rfl

theorem erase_name_eq (r : actor_registry) (key : String) :
    r.erase_name key = { r with named_entries_ := match r.named_entries_.find key with
      | none => r.named_entries_
      | some i => r.named_entries_.erase i } := by
  unfold erase_name
  cases r.named_entries_.find key <;> rfl

theorem get_impl_erase_self (r : actor_registry) (key : Nat) :
    (r.erase key).get_impl key = none := by
  rw [get_impl_eq, erase_eq]
  simp only [value_at_erase_self, Option.getD_none]

theorem get_impl_erase_ne (r : actor_registry) (key other : Nat) (h : other ≠ key) :
    (r.erase key).get_impl other = r.get_impl other := by
  rw [get_impl_eq, get_impl_eq, erase_eq]
  simp only [value_at_erase_ne _ _ _ h]

theorem get_impl_name_erase_self (r : actor_registry) (key : String) :
    (r.erase_name key).get_impl_name key = none := by
  rw [get_impl_name_eq, erase_name_eq]
  simp only [value_at_erase_self, Option.getD_none]

theorem get_impl_name_erase_ne (r : actor_registry) (key other : String) (h : other ≠ key) :
    (r.erase_name key).get_impl_name other = r.get_impl_name other := by
  rw [get_impl_name_eq, get_impl_name_eq, erase_name_eq]
  simp only [value_at_erase_ne _ _ _ h]

theorem put_impl_of_mem (r : actor_registry) (key : Nat) (val : Option Nat)
    (h : key ∈ r.entries_.entries.map Prod.fst) : r.put_impl key val = (r, none) := by
  unfold put_impl
  cases val with
  | none => rfl
  | some a => simp [emplace_of_mem _ _ _ h]

theorem put_impl_of_not_mem (r : actor_registry) (key a : Nat)
    (h : key ∉ r.entries_.entries.map Prod.fst) :
    r.put_impl key (some a)
      = ({ r with entries_ := (r.entries_.emplace key (some a)).1 }, some (a, key)) := by
  unfold put_impl
  simp [(emplace_of_not_mem r.entries_ key (some a) h).2]

end caf.actor_registry

/-! ## The registry contract -/

namespace caf.io.abstract_broker

open caf.unordered_map

/-- C1: for every broker state and every handle of any of the four kinds,
`valid(hdl)` returns true exactly when a resource is registered under `hdl`,
which is exactly when `by_id(hdl)` returns a non-empty result; `by_id(hdl)`
then is the registered resource. -/
theorem valid_iff_registered (b : abstract_broker) (hdl : handle) :
    (b.valid hdl = true ↔ ∃ s, b.registered hdl s) ∧
    (b.valid hdl = true ↔ (b.by_id hdl).isSome = true) ∧
    (∀ s, b.by_id hdl = some s ↔ b.registered hdl s) :=
  ⟨valid_iff_exists_registered b hdl, valid_iff_isSome b hdl, by_id_eq_some_iff b hdl⟩

/-- C2: for every broker state and every handle, registered or not, after
`erase(hdl)` the call `valid(hdl)` returns false and `by_id(hdl)` returns
empty. -/
theorem valid_after_erase (b : abstract_broker) (hdl : handle) :
    (b.erase hdl).valid hdl = false ∧ (b.erase hdl).by_id hdl = none :=
  ⟨valid_erase_self b hdl, by_id_erase_self b hdl⟩

/-- C3: when a resource `r` is registered under `hdl`, `by_id(hdl)` is `r`,
`take(hdl)` returns exactly `r`, and afterwards `hdl` is no longer registered:
`valid(hdl)` is false and no resource is registered under `hdl`. -/
theorem take_registered (b : abstract_broker) (hdl : handle) (r : servant)
    (h : b.registered hdl r) :
    b.by_id hdl = some r ∧ (b.take hdl).1 = some r ∧
    (b.take hdl).2.valid hdl = false ∧ ¬ ∃ s, (b.take hdl).2.registered hdl s := by
  have hb : b.by_id hdl = some r := (by_id_eq_some_iff b hdl r).mpr h
  have hv : (b.take hdl).2.valid hdl = false := by
    rw [take_snd]
    exact valid_erase_self b hdl
  refine ⟨hb, by rw [take_fst, hb], hv, ?_⟩
  rw [← valid_iff_exists_registered, hv]
  exact Bool.false_ne_true

/-- C4: a second `take(hdl)` directly after a first one returns `nullptr` and
leaves the broker exactly as the first one left it; `take(hdl)` on a handle
that is not registered returns `nullptr` and changes nothing. -/
theorem take_twice (b : abstract_broker) (hdl : handle) :
    (b.take hdl).2.take hdl = (none, (b.take hdl).2) ∧
    (b.valid hdl = false → b.take hdl = (none, b)) := by
  have key : ∀ c : abstract_broker, c.valid hdl = false → c.take hdl = (none, c) := by
    intro c hc
    have h1 : (c.take hdl).1 = none := by
      rw [take_fst]
      exact (valid_eq_false_iff c hdl).mp hc
    have h2 : (c.take hdl).2 = c := by
      rw [take_snd]
      exact erase_of_not_valid c hdl hc
    exact Prod.ext h1 h2
  refine ⟨key _ ?_, key b⟩
  rw [take_snd]
  exact valid_erase_self b hdl

/-- C5: `erase(hdl)` on a handle that is not registered leaves the broker (all
four registries and every resource in them) unchanged, and `erase` is
idempotent. -/
theorem erase_unregistered (b : abstract_broker) (hdl : handle) :
    (b.valid hdl = false → b.erase hdl = b) ∧
    (b.erase hdl).erase hdl = b.erase hdl :=
  ⟨erase_of_not_valid b hdl,
    erase_of_not_valid _ hdl (valid_erase_self b hdl)⟩

/-- C6: `erase(hdl)` and `take(hdl)` touch only the entry of `hdl`: the
registry for the type of `hdl` keeps every entry with a different id, in
place, every other handle `other` (of the same type with a different id, or of
another type with any id) still refers to the same resource, and the
registries of the other three handle types are unchanged. -/
theorem erase_take_frame (b : abstract_broker) (hdl other : handle) (h : other ≠ hdl) :
    ((b.erase hdl).get_map hdl).entries
        = (b.get_map hdl).entries.filter (fun e => decide (e.1 ≠ hdl.id)) ∧
    ((b.take hdl).2.get_map hdl).entries
        = (b.get_map hdl).entries.filter (fun e => decide (e.1 ≠ hdl.id)) ∧
    (b.erase hdl).by_id other = b.by_id other ∧
    (b.take hdl).2.by_id other = b.by_id other ∧
    (other.kind ≠ hdl.kind →
      (b.erase hdl).get_map other = b.get_map other ∧
      (b.take hdl).2.get_map other = b.get_map other) := by
  refine ⟨entries_erase_same b hdl hdl rfl, ?_, by_id_erase_ne b hdl other h, ?_, ?_⟩
  · rw [take_snd]
    exact entries_erase_same b hdl hdl rfl
  · rw [take_snd]
    exact by_id_erase_ne b hdl other h
  · intro hk
    rw [take_snd]
    exact ⟨get_map_erase_other b hdl other hk, get_map_erase_other b hdl other hk⟩


/-- Witness for C3: taking connection 2 of the sample broker. -/
theorem take_registered_witness :
    sample_broker.registered ⟨.connection, 2⟩ (servant.fresh 2 (some 3)) ∧
    (sample_broker.take ⟨.connection, 2⟩).1 = some (servant.fresh 2 (some 3)) ∧
    (sample_broker.take ⟨.connection, 2⟩).2.valid ⟨.connection, 2⟩ = false :=
  ⟨by decide,
    (take_registered sample_broker ⟨.connection, 2⟩ (servant.fresh 2 (some 3)) (by decide)).2.1,
    (take_registered sample_broker ⟨.connection, 2⟩ (servant.fresh 2 (some 3)) (by decide)).2.2.1⟩

/-- Witness for C4: no datagram sink 5 is registered in the sample broker. -/
theorem take_twice_witness :
    sample_broker.valid ⟨.datagram_sink, 5⟩ = false ∧
    sample_broker.take ⟨.datagram_sink, 5⟩ = (none, sample_broker) :=
  ⟨by decide, (take_twice sample_broker ⟨.datagram_sink, 5⟩).2 (by decide)⟩

/-- Witness for C5: no acceptor 2 is registered in the sample broker. -/
theorem erase_unregistered_witness :
    sample_broker.valid ⟨.accept, 2⟩ = false ∧
    sample_broker.erase ⟨.accept, 2⟩ = sample_broker :=
  ⟨by decide, (erase_unregistered sample_broker ⟨.accept, 2⟩).1 (by decide)⟩

/-- Witness for C6: erasing connection 1 of the sample broker keeps
acceptor 1, which has the same numeric id. -/
theorem erase_take_frame_witness :
    (⟨.accept, 1⟩ : handle) ≠ ⟨.connection, 1⟩ ∧
    (sample_broker.erase ⟨.connection, 1⟩).by_id ⟨.accept, 1⟩
      = sample_broker.by_id ⟨.accept, 1⟩ ∧
    (sample_broker.erase ⟨.connection, 1⟩).get_map ⟨.accept, 1⟩
      = sample_broker.get_map ⟨.accept, 1⟩ :=
  ⟨by decide,
    (erase_take_frame sample_broker ⟨.connection, 1⟩ ⟨.accept, 1⟩ (by decide)).2.2.1,
    ((erase_take_frame sample_broker ⟨.connection, 1⟩ ⟨.accept, 1⟩ (by decide)).2.2.2.2
      (by decide)).1⟩

/-! ## The activity-token contract -/

/-- C7 as stated fails: connection 1 of the sample broker is registered in
the unbounded token state, and `trigger(hdl, 0)` halts it, so that its token
state changes from unbounded to 0. -/
theorem trigger_zero_unbounded_counterexample :
    sample_broker.registered ⟨.connection, 1⟩ (servant.fresh 1 none) ∧
    (servant.fresh 1 none).activity_tokens = none ∧
    ((sample_broker.trigger_num_events ⟨.connection, 1⟩ 0).by_id ⟨.connection, 1⟩).map
        servant.activity_tokens = some (some 0) ∧
    ((sample_broker.trigger_num_events ⟨.connection, 1⟩ 0).by_id ⟨.connection, 1⟩).map
        servant.activity_tokens ≠ some none := by
  decide

/-- C7, amended: for every registered handle whose resource is in the
unbounded token state, `trigger(hdl, 0)` takes the halt branch: the resource
registered under `hdl` afterwards is the halted one, holding 0 tokens, and
every other handle still refers to the same resource. -/
theorem trigger_zero_unbounded_halts (b : abstract_broker) (hdl : handle) (r : servant)
    (h : b.registered hdl r) (ht : r.activity_tokens = none) :
    b.trigger_num_events hdl 0 = b.store hdl r.halt ∧
    (b.trigger_num_events hdl 0).by_id hdl = some r.halt ∧
    r.halt.activity_tokens = some 0 ∧
    (∀ other, other ≠ hdl → (b.trigger_num_events hdl 0).by_id other = b.by_id other) := by
  have hb : b.by_id hdl = some r := (by_id_eq_some_iff b hdl r).mpr h
  have he : b.trigger_num_events hdl 0 = b.store hdl r.halt := by
    simp [trigger_num_events, hb, ht]
  refine ⟨he, ?_, rfl, ?_⟩
  · rw [he]
    exact by_id_store_self b hdl r _ hb
  · intro other ho
    rw [he]
    exact by_id_store_ne b hdl other _ ho

/-- Witness for the amended C7: connection 1 of the sample broker. -/
theorem trigger_zero_unbounded_halts_witness :
    sample_broker.registered ⟨.connection, 1⟩ (servant.fresh 1 none) ∧
    (servant.fresh 1 none).activity_tokens = none ∧
    (sample_broker.trigger_num_events ⟨.connection, 1⟩ 0).by_id ⟨.connection, 1⟩
      = some (servant.fresh 1 none).halt :=
  ⟨by decide, rfl,
    (trigger_zero_unbounded_halts sample_broker ⟨.connection, 1⟩ (servant.fresh 1 none)
      (by decide) rfl).2.1⟩

/-- C8: for every registered handle whose resource holds a positive finite
number `k` of activity tokens, `trigger(hdl, 0)` is ignored: the broker is
unchanged, so the resource still holds exactly `k` tokens and is not halted. -/
theorem trigger_zero_positive_ignored (b : abstract_broker) (hdl : handle) (r : servant)
    (k : Nat) (h : b.registered hdl r) (ht : r.activity_tokens = some k) (hk : 0 < k) :
    b.trigger_num_events hdl 0 = b ∧
    ((b.trigger_num_events hdl 0).by_id hdl).map servant.activity_tokens = some (some k) ∧
    ((b.trigger_num_events hdl 0).by_id hdl).map servant.activity_tokens ≠ some (some 0) := by
  have hb : b.by_id hdl = some r := (by_id_eq_some_iff b hdl r).mpr h
  have he : b.trigger_num_events hdl 0 = b := by
    simp [trigger_num_events, hb, ht]
  rw [he, hb]
  refine ⟨rfl, by simp [ht], ?_⟩
  simp only [Option.map_some', ht, ne_eq, Option.some.injEq]
  exact Nat.pos_iff_ne_zero.mp hk

/-- Witness for C8: connection 2 of the sample broker holds three tokens. -/
theorem trigger_zero_positive_ignored_witness :
    sample_broker.registered ⟨.connection, 2⟩ (servant.fresh 2 (some 3)) ∧
    sample_broker.trigger_num_events ⟨.connection, 2⟩ 0 = sample_broker :=
  ⟨by decide,
    (trigger_zero_positive_ignored sample_broker ⟨.connection, 2⟩ (servant.fresh 2 (some 3)) 3
      (by decide) rfl (by decide)).1⟩

/-- C9: for every registered handle whose resource holds exactly 0 activity
tokens, `trigger(hdl, 0)` leaves it halted with 0 tokens, and applying
`trigger(hdl, 0)` any number of times gives the same state as applying it
once. -/
theorem trigger_zero_halted (b : abstract_broker) (hdl : handle) (r : servant)
    (h : b.registered hdl r) (ht : r.activity_tokens = some 0) :
    ((b.trigger_num_events hdl 0).by_id hdl).map servant.activity_tokens = some (some 0) ∧
    (b.trigger_num_events hdl 0).by_id hdl = some r ∧
    (∀ n : Nat, Nat.iterate (fun c => c.trigger_num_events hdl 0) (n + 1) b
      = b.trigger_num_events hdl 0) := by
  have hb : b.by_id hdl = some r := (by_id_eq_some_iff b hdl r).mpr h
  have he : b.trigger_num_events hdl 0 = b := by
    simp [trigger_num_events, hb, ht]
  have hfix : ∀ n : Nat, Nat.iterate (fun c => c.trigger_num_events hdl 0) n b = b := by
    intro n
    induction n with
    | zero => rfl
    | succ n ih =>
      rw [Function.iterate_succ_apply]
      exact (congrArg _ he).trans ih
  refine ⟨by rw [he, hb]; simp [ht], by rw [he, hb], ?_⟩
  intro n
  rw [hfix, he]

/-- Witness for C9: connection 3 of the sample broker is halted. -/
theorem trigger_zero_halted_witness :
    sample_broker.registered ⟨.connection, 3⟩ (servant.fresh 3 (some 0)) ∧
    Nat.iterate (fun c => c.trigger_num_events ⟨.connection, 3⟩ 0) 4 sample_broker
      = sample_broker.trigger_num_events ⟨.connection, 3⟩ 0 :=
  ⟨by decide,
    (trigger_zero_halted sample_broker ⟨.connection, 3⟩ (servant.fresh 3 (some 0))
      (by decide) rfl).2.2 3⟩

/-- C10: for every registered handle, every prior token state and every
`n > 0`, `trigger(hdl, n)` calls `trigger(n)` on the resource and not `halt`:
afterwards the resource holds `n` activity tokens, which is not the halted
state, and every other handle still refers to the same resource. -/
theorem trigger_positive_sets_tokens (b : abstract_broker) (hdl : handle) (r : servant)
    (n : Nat) (h : b.registered hdl r) (hn : 0 < n) :
    b.trigger_num_events hdl n = b.store hdl (r.trigger_num n) ∧
    (b.trigger_num_events hdl n).by_id hdl = some (r.trigger_num n) ∧
    ((b.trigger_num_events hdl n).by_id hdl).map servant.activity_tokens = some (some n) ∧
    ((b.trigger_num_events hdl n).by_id hdl).map servant.activity_tokens ≠ some (some 0) ∧
    (∀ other, other ≠ hdl → (b.trigger_num_events hdl n).by_id other = b.by_id other) := by
  have hb : b.by_id hdl = some r := (by_id_eq_some_iff b hdl r).mpr h
  have he : b.trigger_num_events hdl n = b.store hdl (r.trigger_num n) := by
    simp [trigger_num_events, hb, hn]
  have hs : (b.trigger_num_events hdl n).by_id hdl = some (r.trigger_num n) := by
    rw [he]
    exact by_id_store_self b hdl r _ hb
  refine ⟨he, hs, by rw [hs]; rfl, ?_, ?_⟩
  · rw [hs]
    simp only [Option.map_some', ne_eq, Option.some.injEq, servant.trigger_num,
      servant.activity_tokens]
    exact Nat.pos_iff_ne_zero.mp hn
  · intro other ho
    rw [he]
    exact by_id_store_ne b hdl other _ ho

/-- Witness for C10: granting five events to the halted connection 3 of the
sample broker. -/
theorem trigger_positive_sets_tokens_witness :
    sample_broker.registered ⟨.connection, 3⟩ (servant.fresh 3 (some 0)) ∧
    ((sample_broker.trigger_num_events ⟨.connection, 3⟩ 5).by_id ⟨.connection, 3⟩).map
        servant.activity_tokens = some (some 5) :=
  ⟨by decide,
    (trigger_positive_sets_tokens sample_broker ⟨.connection, 3⟩ (servant.fresh 3 (some 0)) 5
      (by decide) (by decide)).2.2.1⟩

end caf.io.abstract_broker

/-! ## Halting, closing and counting -/

namespace caf.io.abstract_broker

open caf.unordered_map

/-- C11: for every registered handle and every prior token state, `halt(hdl)`
sets the activity tokens of the resource to 0, and `halt(hdl)` followed by
`trigger(hdl)` leaves the resource in the unbounded token state. -/
theorem halt_then_trigger (b : abstract_broker) (hdl : handle) (r : servant)
    (h : b.registered hdl r) :
    (b.halt hdl).by_id hdl = some r.halt ∧
    ((b.halt hdl).by_id hdl).map servant.activity_tokens = some (some 0) ∧
    ((b.halt hdl).trigger hdl).by_id hdl = some r.halt.trigger ∧
    (((b.halt hdl).trigger hdl).by_id hdl).map servant.activity_tokens = some none := by
  have hb : b.by_id hdl = some r := (by_id_eq_some_iff b hdl r).mpr h
  have h1 : (b.halt hdl).by_id hdl = some r.halt := by
    have he : b.halt hdl = b.store hdl r.halt := by simp [halt, hb]
    rw [he]
    exact by_id_store_self b hdl r _ hb
  have h2 : ((b.halt hdl).trigger hdl).by_id hdl = some r.halt.trigger := by
    have he : (b.halt hdl).trigger hdl = (b.halt hdl).store hdl r.halt.trigger := by
      simp [trigger, h1]
    rw [he]
    exact by_id_store_self _ hdl _ _ h1
  refine ⟨h1, ?_, h2, ?_⟩
  · rw [h1]
    rfl
  · rw [h2]
    rfl

/-- Witness for C11: halting and triggering connection 2 of the sample
broker, which holds three tokens. -/
theorem halt_then_trigger_witness :
    sample_broker.registered ⟨.connection, 2⟩ (servant.fresh 2 (some 3)) ∧
    ((sample_broker.halt ⟨.connection, 2⟩).by_id ⟨.connection, 2⟩).map
        servant.activity_tokens = some (some 0) ∧
    (((sample_broker.halt ⟨.connection, 2⟩).trigger ⟨.connection, 2⟩).by_id
        ⟨.connection, 2⟩).map servant.activity_tokens = some none :=
  ⟨by decide,
    (halt_then_trigger sample_broker ⟨.connection, 2⟩ (servant.fresh 2 (some 3))
      (by decide)).2.1,
    (halt_then_trigger sample_broker ⟨.connection, 2⟩ (servant.fresh 2 (some 3))
      (by decide)).2.2.2⟩

/-- C12: for every handle that is not registered, `halt(hdl)`, `trigger(hdl)`
and `trigger(hdl, n)` for every `n`, 0 included, return the broker unchanged:
all four registries and every resource in them stay as they are. -/
theorem token_calls_unregistered (b : abstract_broker) (hdl : handle)
    (h : b.valid hdl = false) :
    b.halt hdl = b ∧ b.trigger hdl = b ∧ ∀ n : Nat, b.trigger_num_events hdl n = b := by
  have hb : b.by_id hdl = none := (valid_eq_false_iff b hdl).mp h
  refine ⟨by simp [halt, hb], by simp [trigger, hb], ?_⟩
  intro n
  simp [trigger_num_events, hb]

/-- Witness for C12: no datagram source 4 is registered in the sample
broker. -/
theorem token_calls_unregistered_witness :
    sample_broker.valid ⟨.datagram_source, 4⟩ = false ∧
    sample_broker.halt ⟨.datagram_source, 4⟩ = sample_broker ∧
    sample_broker.trigger_num_events ⟨.datagram_source, 4⟩ 0 = sample_broker :=
  ⟨by decide,
    (token_calls_unregistered sample_broker ⟨.datagram_source, 4⟩ (by decide)).1,
    (token_calls_unregistered sample_broker ⟨.datagram_source, 4⟩ (by decide)).2.2 0⟩

/-- C13: `close(hdl)` returns true exactly when `hdl` is registered; for a
registered handle it calls `stop_reading` on the resource registered under
`hdl` and leaves the resource of every other handle as it is; for a handle
that is not registered it returns false and the broker is unchanged. -/
theorem close_iff_registered (stop_reading : servant → servant) (b : abstract_broker)
    (hdl : handle) :
    ((b.close stop_reading hdl).1 = true ↔ b.valid hdl = true) ∧
    ((b.close stop_reading hdl).1 = true ↔ ∃ s, b.registered hdl s) ∧
    (∀ r, b.registered hdl r →
      (b.close stop_reading hdl).2.by_id hdl = some (stop_reading r) ∧
      ∀ other, other ≠ hdl →
        (b.close stop_reading hdl).2.by_id other = b.by_id other) ∧
    (b.valid hdl = false → b.close stop_reading hdl = (false, b)) := by
  have hv : (b.close stop_reading hdl).1 = true ↔ b.valid hdl = true := by
    rw [valid_iff_isSome]
    unfold close
    cases b.by_id hdl <;> simp
  refine ⟨hv, hv.trans (valid_iff_exists_registered b hdl), ?_, ?_⟩
  · intro r hr
    have hb : b.by_id hdl = some r := (by_id_eq_some_iff b hdl r).mpr hr
    have he : (b.close stop_reading hdl).2 = b.store hdl (stop_reading r) := by
      simp [close, hb]
    rw [he]
    exact ⟨by_id_store_self b hdl r _ hb, fun other ho => by_id_store_ne b hdl other _ ho⟩
  · intro hf
    have hb : b.by_id hdl = none := (valid_eq_false_iff b hdl).mp hf
    simp [close, hb]

/-- Witness for C13: closing connection 1 of the sample broker, with a
`stop_reading` that disables the receive policy, and closing acceptor 2,
which is not registered. -/
theorem close_iff_registered_witness :
    sample_broker.registered ⟨.connection, 1⟩ (servant.fresh 1 none) ∧
    (sample_broker.close (fun s => { s with policy := receive_policy.disabled })
        ⟨.connection, 1⟩).2.by_id ⟨.connection, 1⟩ = some (servant.fresh 1 none) ∧
    sample_broker.valid ⟨.accept, 2⟩ = false ∧
    sample_broker.close (fun s => { s with policy := receive_policy.disabled })
        ⟨.accept, 2⟩ = (false, sample_broker) :=
  ⟨by decide,
    ((close_iff_registered (fun s => { s with policy := receive_policy.disabled })
      sample_broker ⟨.connection, 1⟩).2.2.1 (servant.fresh 1 none) (by decide)).1,
    by decide,
    (close_iff_registered (fun s => { s with policy := receive_policy.disabled })
      sample_broker ⟨.accept, 2⟩).2.2.2 (by decide)⟩

/-- C14: `num_connections()` is the number of connection handles for which
`valid` is true; `erase` or `take` of a registered connection handle lowers
it by exactly one, and `erase` or `take` of a connection handle that is not
registered, or of a handle of another type, leaves it unchanged. -/
theorem num_connections_counts_valid (b : abstract_broker) (hdl : handle) :
    Set.ncard {id : Int | b.valid ⟨handle_kind.connection, id⟩ = true}
      = b.num_connections ∧
    (hdl.kind = handle_kind.connection → b.valid hdl = true →
      (b.erase hdl).num_connections + 1 = b.num_connections ∧
      (b.take hdl).2.num_connections + 1 = b.num_connections) ∧
    (hdl.kind ≠ handle_kind.connection ∨ b.valid hdl = false →
      (b.erase hdl).num_connections = b.num_connections ∧
      (b.take hdl).2.num_connections = b.num_connections) := by
  refine ⟨ncard_valid_connections b, ?_, ?_⟩
  · intro hk hv
    rw [take_snd]
    exact ⟨num_connections_erase_registered b hdl hk hv,
      num_connections_erase_registered b hdl hk hv⟩
  · intro h
    rw [take_snd]
    exact ⟨num_connections_erase_other b hdl h, num_connections_erase_other b hdl h⟩

/-- Witness for C14: the sample broker has three connections; erasing
connection 2 leaves two, erasing acceptor 1 leaves three. -/
theorem num_connections_counts_valid_witness :
    sample_broker.num_connections = 3 ∧
    (sample_broker.erase ⟨.connection, 2⟩).num_connections + 1 = 3 ∧
    (sample_broker.erase ⟨.accept, 1⟩).num_connections = 3 :=
  ⟨by decide,
    ((num_connections_counts_valid sample_broker ⟨.connection, 2⟩).2.1
      (by decide) (by decide)).1,
    ((num_connections_counts_valid sample_broker ⟨.accept, 1⟩).2.2
      (Or.inl (by decide))).1⟩

end caf.io.abstract_broker

/-! ## Writing raw bytes -/

namespace caf.binary_serializer

/-- C19: `apply_raw` is an overwrite-then-append write.  For every buffer `b`,
write position `p ≤ b.length` and data `d` of `n` bytes, the buffer afterwards
is `b[0..p) ++ d ++ b[p+n..L)`, of length `max L (p + n)`, the write position
is `p + n` and the returned error is `none`, whichever of the three branches
runs, the boundary case `p + n = L` included. -/
theorem apply_raw_overwrite_then_append (b : List Nat) (p n : Nat) (d : List Nat)
    (hp : p ≤ b.length) (hd : d.length = n) :
    apply_raw { buf_ := b, write_pos_ := p } n d
      = (error.none, { buf_ := overwrite_then_append b p d, write_pos_ := p + n }) ∧
    (overwrite_then_append b p d).length = max b.length (p + n) := by
  refine ⟨apply_raw_eq b p n d hp hd, ?_⟩
  rw [← hd]
  exact length_overwrite_then_append b p d hp

/-- Witness for C19: two bytes written at position 3 of a buffer of five
bytes, the boundary case `p + n = L`. -/
theorem apply_raw_overwrite_then_append_witness :
    apply_raw { buf_ := [1, 2, 3, 4, 5], write_pos_ := 3 } 2 [9, 8]
      = (error.none, { buf_ := [1, 2, 3, 9, 8], write_pos_ := 5 }) :=
  (apply_raw_overwrite_then_append [1, 2, 3, 4, 5] 3 2 [9, 8] (by decide) rfl).1

/-- C20: `skip(n)` advances the write position by exactly `n` without altering
existing bytes.  For every buffer `b` and write position `p ≤ b.length`, the
write position afterwards is `p + n`, the first `L` bytes of the buffer are
`b`, the buffer has length `max L (p + n)` and every byte beyond `L` is zero. -/
theorem skip_advances (b : List Nat) (p n : Nat) (hp : p ≤ b.length) :
    (skip { buf_ := b, write_pos_ := p } n).write_pos_ = p + n ∧
    (skip { buf_ := b, write_pos_ := p } n).buf_.take b.length = b ∧
    (skip { buf_ := b, write_pos_ := p } n).buf_.length = max b.length (p + n) ∧
    (∀ i, b.length ≤ i → i < (skip { buf_ := b, write_pos_ := p } n).buf_.length →
      (skip { buf_ := b, write_pos_ := p } n).buf_[i]? = some 0) ∧
    (skip { buf_ := b, write_pos_ := p } n).buf_
      = b ++ List.replicate (p + n - b.length) 0 := by
  rw [skip_eq b p n hp]
  refine ⟨rfl, by simp, ?_, ?_, rfl⟩
  · simp only [List.length_append, List.length_replicate]
    omega
  · intro i h1 h2
    simp only [List.length_append, List.length_replicate] at h2
    rw [List.getElem?_append_right h1, List.getElem?_replicate]
    simp only [ite_eq_left_iff, not_lt]
    intro h3
    omega

/-- Witness for C20: skipping three bytes from position 4 of a buffer of five
bytes appends two zero bytes. -/
theorem skip_advances_witness :
    (skip { buf_ := [1, 2, 3, 4, 5], write_pos_ := 4 } 3).write_pos_ = 7 ∧
    (skip { buf_ := [1, 2, 3, 4, 5], write_pos_ := 4 } 3).buf_ = [1, 2, 3, 4, 5, 0, 0] :=
  ⟨(skip_advances [1, 2, 3, 4, 5] 4 3 (by decide)).1,
    (skip_advances [1, 2, 3, 4, 5] 4 3 (by decide)).2.2.2.2⟩

end caf.binary_serializer

/-! ## The receive policy `exactly` -/

namespace caf.io

/-- C15 as stated fails in two cases.  With `exactly 0` and no delivery at
all no `new_data_msg` is emitted, and two empty deliveries emit two.  With a
scribe that holds one byte of an earlier, unfinished read when it is
configured with `exactly 2`, the deliveries `[1]` and `[2]` emit one event
that carries the old byte and leave the byte 2 in the read buffer. -/
theorem exactly_policy_counterexample :
    ((sample_broker.configure_read 1 (receive_policy.exactly 0)).by_id
        ⟨.connection, 1⟩).map (fun s => (s.deliveries []).2) = some [] ∧
    ((sample_broker.configure_read 1 (receive_policy.exactly 0)).by_id
        ⟨.connection, 1⟩).map (fun s => (s.deliveries [[], []]).2.length) = some 2 ∧
    (({ servant.fresh 1 none with policy := receive_policy.exactly 4 }).deliveries
        [[7]]).1.read_buffer = [7] ∧
    (({ servant.fresh 1 none with
          policy := receive_policy.exactly 2, read_buffer := [7] }).deliveries
        [[1], [2]])
      = ({ servant.fresh 1 none with
            policy := receive_policy.exactly 2, read_buffer := [2] },
          [{ handle := 1, buf := [7, 1] }]) := by
  decide

/-- C15, amended: with a scribe whose read buffer is empty, configured by
`configure_read(hdl, exactly N)` with `N > 0`, for every way of splitting `N`
bytes across successive readiness deliveries exactly one `new_data_msg` is
emitted, it carries exactly those `N` bytes in order, the read buffer is empty
afterwards, and after any first part of the deliveries the event has been
emitted exactly when the bytes delivered so far number `N`. -/
theorem exactly_policy_emits_once (b : abstract_broker) (id : Int) (r : servant) (N : Nat)
    (chunks : List (List Nat)) (h : b.registered ⟨handle_kind.connection, id⟩ r)
    (hbuf : r.read_buffer = []) (hN : 0 < N) (htotal : chunks.flatten.length = N) :
    (b.configure_read id (receive_policy.exactly N)).by_id ⟨handle_kind.connection, id⟩
      = some { r with policy := receive_policy.exactly N } ∧
    (({ r with policy := receive_policy.exactly N }).deliveries chunks).2
      = [{ handle := r.hdl, buf := chunks.flatten }] ∧
    (({ r with policy := receive_policy.exactly N }).deliveries chunks).1.read_buffer = [] ∧
    (∀ first rest, chunks = first ++ rest →
      (({ r with policy := receive_policy.exactly N }).deliveries first).2
        = if first.flatten.length < N then []
          else [{ handle := r.hdl, buf := chunks.flatten }]) := by
  have key : ∀ cs : List (List Nat), cs.flatten.length = N →
      (({ r with policy := receive_policy.exactly N }).deliveries cs).2
        = [{ handle := r.hdl, buf := cs.flatten }] ∧
      (({ r with policy := receive_policy.exactly N }).deliveries cs).1.read_buffer = [] := by
    intro cs hcs
    have hr := deliveries_reach { r with policy := receive_policy.exactly N } N cs rfl hN
      (by simp [hbuf, hN]) (by simp [hbuf, hcs])
    simpa [hbuf] using hr
  refine ⟨by_id_configure_read b id r _ h, (key chunks htotal).1, (key chunks htotal).2, ?_⟩
  intro first rest hsplit
  have hsum : first.flatten.length + rest.flatten.length = N := by
    rw [← htotal, hsplit, List.flatten_append, List.length_append]
  by_cases hlt : first.flatten.length < N
  · rw [if_pos hlt, deliveries_below _ N first rfl
      (by simp only [hbuf, List.length_nil, Nat.zero_add]; exact hlt)]
  · have hfirst : first.flatten.length = N := by omega
    have hrest : rest.flatten = [] := List.eq_nil_of_length_eq_zero (by omega)
    rw [if_neg hlt, (key first hfirst).1, hsplit, List.flatten_append, hrest,
      List.append_nil]

/-- Witness for the amended C15: connection 2 of the sample broker, configured
with `exactly 3`, receives the bytes 1, 2, 3 in the deliveries `[1]`, `[]`,
`[2, 3]`. -/
theorem exactly_policy_emits_once_witness :
    sample_broker.registered ⟨.connection, 2⟩ (servant.fresh 2 (some 3)) ∧
    (({ servant.fresh 2 (some 3) with policy := receive_policy.exactly 3 }).deliveries
        [[1], [], [2, 3]]).2 = [{ handle := 2, buf := [1, 2, 3] }] :=
  ⟨by decide,
    (exactly_policy_emits_once sample_broker 2 (servant.fresh 2 (some 3)) 3
      [[1], [], [2, 3]] (by decide) rfl (by decide) rfl).2.1⟩

end caf.io

/-! ## Cleanup -/

namespace caf.io.broker_state

/-- C16: `cleanup` is idempotent.  The first of two calls in succession
releases the resources the broker owns, which for a running broker are the
registered resources of all four registries, each exactly once; the second
call releases nothing, returns false and leaves the broker as the first call
left it, with no resource; both calls return. -/
theorem cleanup_idempotent (s : broker_state) :
    s.cleanup.2.1 = s.resources ∧
    s.cleanup.2.1.Nodup ∧
    (∀ registries : abstract_broker, s = running registries →
      s.cleanup.1 = true ∧
      ∀ hdl r, (hdl, r) ∈ s.cleanup.2.1 ↔ registries.registered hdl r) ∧
    s.cleanup.2.2.cleanup.2.1 = [] ∧
    s.cleanup.2.2.cleanup.1 = false ∧
    s.cleanup.2.2.cleanup.2.2 = s.cleanup.2.2 ∧
    s.cleanup.2.2.resources = [] := by
  cases s with
  | running registries =>
    refine ⟨rfl, abstract_broker.nodup_resources registries, ?_, rfl, rfl, rfl, rfl⟩
    intro other hs
    cases hs
    exact ⟨rfl, fun hdl r => abstract_broker.mem_resources_iff registries hdl r⟩
  | terminated =>
    refine ⟨rfl, List.nodup_nil, ?_, rfl, rfl, rfl, rfl⟩
    intro other hs
    cases hs

/-- Witness for C16: cleaning up the running sample broker releases its four
resources, connection 2 among them, and a second call releases none. -/
theorem cleanup_idempotent_witness :
    (running sample_broker).cleanup.1 = true ∧
    ((⟨.connection, 2⟩, servant.fresh 2 (some 3)) ∈ (running sample_broker).cleanup.2.1
      ↔ sample_broker.registered ⟨.connection, 2⟩ (servant.fresh 2 (some 3))) ∧
    (running sample_broker).cleanup.2.1.length = 4 ∧
    (running sample_broker).cleanup.2.2.cleanup.2.1 = [] :=
  ⟨((cleanup_idempotent (running sample_broker)).2.2.1 sample_broker rfl).1,
    ((cleanup_idempotent (running sample_broker)).2.2.1 sample_broker rfl).2 _ _,
    by decide,
    (cleanup_idempotent (running sample_broker)).2.2.2.1⟩

end caf.io.broker_state

/-! ## The wire format of integers, strings and objects -/

namespace caf.binary_serializer

/-- C21: fixed-width integers are serialized in network byte order with
exactly `sizeof(T)` bytes.  For every integer type `T` and every value `x` of
`T`, `apply_impl` writes the `sizeof(T)` bytes of `x mod 2^w`, most significant
byte first, so that the bytes `b_i` satisfy `sum b_i * 256^(w/8-1-i) = x mod
2^w`, which is `x` for an unsigned type; a signed value is written as the
unsigned value `x mod 2^w` is; an 8-bit value is written as one byte; and the
encoding of each type is injective. -/
theorem apply_impl_network_order (T : int_type) (x : Int) (b : List Nat) (p : Nat)
    (hp : p ≤ b.length) (hx : T.in_range x) :
    apply_impl { buf_ := b, write_pos_ := p } T x
      = (error.none,
          { buf_ := overwrite_then_append b p
              (to_network_order T.size (static_cast_unsigned (8 * T.size) x)),
            write_pos_ := p + T.size }) ∧
    (to_network_order T.size (static_cast_unsigned (8 * T.size) x)).length = T.size ∧
    (∀ byte ∈ to_network_order T.size (static_cast_unsigned (8 * T.size) x), byte < 256) ∧
    network_value (to_network_order T.size (static_cast_unsigned (8 * T.size) x))
      = static_cast_unsigned (8 * T.size) x ∧
    ((static_cast_unsigned (8 * T.size) x : Nat) : Int) = x % 2 ^ (8 * T.size) ∧
    (T.is_signed = false → ((static_cast_unsigned (8 * T.size) x : Nat) : Int) = x) ∧
    apply_impl { buf_ := b, write_pos_ := p } T x
      = apply_impl { buf_ := b, write_pos_ := p } T.to_unsigned
          (static_cast_unsigned (8 * T.size) x : Nat) ∧
    (∀ y, T.in_range y →
      apply_impl { buf_ := b, write_pos_ := p } T y
        = apply_impl { buf_ := b, write_pos_ := p } T x → y = x) := by
  have hpow : 256 ^ T.size = 2 ^ (8 * T.size) := by rw [Nat.pow_mul]
  refine ⟨apply_impl_eq T x b p hp hx, length_to_network_order _ _,
    fun byte hb => to_network_order_lt _ _ byte hb, ?_, static_cast_unsigned_cast _ _, ?_, ?_,
    fun y hy h => apply_impl_injective T x y b p hp hx hy h⟩
  · rw [network_value_to_network_order, hpow]
    exact Nat.mod_eq_of_lt (static_cast_unsigned_lt _ _)
  · intro hs
    have hr := in_range_unsigned T x hs hx
    rw [static_cast_unsigned_of_nonneg _ x hr.1 hr.2]
    exact Int.toNat_of_nonneg hr.1
  · rw [apply_impl_eq T x b p hp hx,
      apply_impl_eq T.to_unsigned _ b p hp (in_range_to_unsigned T x), size_to_unsigned,
      static_cast_unsigned_idem]

/-- Witness for C21: the `int16_t` value -2 is written as the bytes 255, 254,
as the `uint16_t` value 65534 is. -/
theorem apply_impl_network_order_witness :
    int_type.int16.in_range (-2) ∧
    apply_impl { buf_ := [7], write_pos_ := 1 } int_type.int16 (-2)
      = (error.none, { buf_ := [7, 255, 254], write_pos_ := 3 }) ∧
    network_value [255, 254] = 65534 :=
  ⟨by decide,
    (apply_impl_network_order int_type.int16 (-2) [7] 1 (by decide) (by decide)).1.trans
      (by decide),
    by decide⟩

/-- C22: a `std::string` is serialized as a 4-byte length prefix, most
significant byte first, followed by its bytes unchanged.  Writing `x` at the
end of the buffer appends exactly `4 + |x|` bytes, the prefix encodes `|x| mod
2^32`, which is `|x|` when `|x| < 2^32`, and the branch for the empty string
appends the four zero bytes the general branch produces for it. -/
theorem apply_impl_string_layout (b x : List Nat) :
    apply_impl_string { buf_ := b, write_pos_ := b.length } x
      = (error.none,
          { buf_ := b ++ to_network_order 4 (x.length % 2 ^ 32) ++ x,
            write_pos_ := b.length + (4 + x.length) }) ∧
    (to_network_order 4 (x.length % 2 ^ 32) ++ x).length = 4 + x.length ∧
    network_value (to_network_order 4 (x.length % 2 ^ 32)) = x.length % 2 ^ 32 ∧
    (x.length < 2 ^ 32 →
      network_value (to_network_order 4 (x.length % 2 ^ 32)) = x.length) ∧
    apply_impl_string { buf_ := b, write_pos_ := b.length } []
      = (error.none, { buf_ := b ++ [0, 0, 0, 0], write_pos_ := b.length + 4 }) ∧
    error_eval [fun s => begin_sequence s 0, fun s => apply_raw s 0 [],
        fun s => end_sequence s] { buf_ := b, write_pos_ := b.length }
      = apply_impl_string { buf_ := b, write_pos_ := b.length } [] := by
  have hval : network_value (to_network_order 4 (x.length % 2 ^ 32)) = x.length % 2 ^ 32 := by
    rw [network_value_to_network_order]
    exact Nat.mod_eq_of_lt (lt_of_lt_of_le (Nat.mod_lt _ (by positivity)) (by norm_num))
  have hempty : apply_impl_string { buf_ := b, write_pos_ := b.length } []
      = (error.none, { buf_ := b ++ [0, 0, 0, 0], write_pos_ := b.length + 4 }) := by
    rw [apply_impl_string_end]
    simp [to_network_order]
  refine ⟨apply_impl_string_end b x, ?_, hval, ?_, hempty, ?_⟩
  · rw [List.length_append, length_to_network_order]
  · intro hlt
    rw [hval, Nat.mod_eq_of_lt hlt]
  · have hseq := begin_sequence_eq b b.length 0 (le_refl _)
    rw [overwrite_then_append_end] at hseq
    have hraw := apply_raw_eq (b ++ to_network_order 4 (0 % 2 ^ 32)) (b.length + 4) 0 []
      (by rw [List.length_append, length_to_network_order]) rfl
    rw [hempty]
    simp only [error_eval, hseq, hraw, end_sequence]
    simp [overwrite_then_append, to_network_order]

/-- C23: `begin_object` writes the type name exactly when the type number is
0.  For `nr != 0` it writes the two bytes of `nr`, most significant first, and
nothing else; for `nr == 0` it writes two zero bytes followed by the
serialized name, a 4-byte length prefix and the bytes of the name;
`end_object` and `end_sequence` write nothing and return `none`. -/
theorem begin_object_layout (bs : binary_serializer) (b : List Nat) (p nr : Nat)
    (name : List Nat) (hp : p ≤ b.length) (hnr : nr < 2 ^ 16) :
    (nr ≠ 0 →
      begin_object { buf_ := b, write_pos_ := p } nr name
        = (error.none,
            { buf_ := overwrite_then_append b p (to_network_order 2 nr),
              write_pos_ := p + 2 })) ∧
    begin_object { buf_ := b, write_pos_ := p } 0 name
      = apply_impl_string
          { buf_ := overwrite_then_append b p [0, 0], write_pos_ := p + 2 } name ∧
    begin_object { buf_ := b, write_pos_ := b.length } 0 name
      = (error.none,
          { buf_ := b ++ [0, 0] ++ to_network_order 4 (name.length % 2 ^ 32) ++ name,
            write_pos_ := b.length + 2 + (4 + name.length) }) ∧
    end_object bs = (error.none, bs) ∧
    end_sequence bs = (error.none, bs) := by
  have hwrite : ∀ (c : List Nat) (q n : Nat), q ≤ c.length → n < 2 ^ 16 →
      apply_impl { buf_ := c, write_pos_ := q } int_type.uint16 (n : Int)
        = (error.none,
            { buf_ := overwrite_then_append c q (to_network_order 2 n),
              write_pos_ := q + 2 }) := by
    intro c q n hq hn
    have hr : int_type.uint16.in_range (n : Int) := by
      simp only [int_type.in_range, int_type.is_signed, int_type.size, Bool.false_eq_true,
        if_false]
      exact ⟨Int.natCast_nonneg _, by exact_mod_cast hn⟩
    have h := apply_impl_eq int_type.uint16 n c q hq hr
    simp only [int_type.size] at h
    rw [static_cast_unsigned_natCast, Nat.mod_eq_of_lt (by simpa using hn)] at h
    exact h
  have hzero : ∀ (c : List Nat) (q : Nat), q ≤ c.length →
      begin_object { buf_ := c, write_pos_ := q } 0 name
        = apply_impl_string
            { buf_ := overwrite_then_append c q [0, 0], write_pos_ := q + 2 } name := by
    intro c q hq
    have h := hwrite c q 0 hq (by norm_num)
    simp only [Nat.cast_zero] at h
    simp only [begin_object, ne_eq, not_true_eq_false, if_false, Nat.cast_zero, h]
    simp [to_network_order]
  refine ⟨?_, hzero b p hp, ?_, rfl, rfl⟩
  · intro hne
    simp only [begin_object, ne_eq, hne, not_false_eq_true, if_true]
    exact hwrite b p nr hp hnr
  · rw [hzero b b.length (le_refl _), overwrite_then_append_end]
    have hlen : (b ++ [0, 0]).length = b.length + 2 := by simp
    rw [← hlen, apply_impl_string_end]

/-- Witness for C23: type number 515 is written as the bytes 2, 3 and the name
is ignored. -/
theorem begin_object_layout_witness :
    begin_object { buf_ := [], write_pos_ := 0 } 515 [97]
      = (error.none, { buf_ := [2, 3], write_pos_ := 2 }) :=
  ((begin_object_layout { buf_ := [], write_pos_ := 0 } [] 0 515 [97] (by decide)
    (by decide)).1 (by decide)).trans (by decide)

end caf.binary_serializer

/-- Witness for C22: the string "ab" written after one byte; its length 2 is
below `2^32` and the prefix denotes 2. -/
theorem caf.binary_serializer.apply_impl_string_layout_witness :
    caf.binary_serializer.apply_impl_string { buf_ := [7], write_pos_ := 1 } [97, 98]
      = (caf.error.none, { buf_ := [7, 0, 0, 0, 2, 97, 98], write_pos_ := 7 }) ∧
    caf.network_value (caf.to_network_order 4 (2 % 2 ^ 32)) = 2 :=
  ⟨(caf.binary_serializer.apply_impl_string_layout [7] [97, 98]).1.trans (by decide),
    (caf.binary_serializer.apply_impl_string_layout [7] [97, 98]).2.2.2.1 (by decide)⟩

/-! ## The actor registry contract -/

namespace caf.actor_registry

open caf.unordered_map

/-- C24: the id-keyed registry is first-writer-wins.  `put_impl(key, val)`
with a null `val`, or with a key that is present, leaves the registry
unchanged and attaches no functor; with a non-null `val` and an absent key it
makes `get_impl(key)` return `val`, attaches one functor for `key` and keeps
every other key; `get_impl` of an absent key returns null; after `erase(key)`
`get_impl(key)` returns null and every other key is unchanged. -/
theorem put_impl_first_writer_wins (r : actor_registry) (key : Nat) (val : Option Nat) :
    r.put_impl key none = (r, none) ∧
    (key ∈ r.entries_.entries.map Prod.fst → r.put_impl key val = (r, none)) ∧
    (∀ a, val = some a → key ∉ r.entries_.entries.map Prod.fst →
      (r.put_impl key val).1.get_impl key = val ∧
      (r.put_impl key val).2 = some (a, key) ∧
      (r.put_impl key val).1.named_entries_ = r.named_entries_ ∧
      ∀ other, other ≠ key → (r.put_impl key val).1.get_impl other = r.get_impl other) ∧
    (key ∉ r.entries_.entries.map Prod.fst → r.get_impl key = none) ∧
    (r.erase key).get_impl key = none ∧
    (r.erase key).named_entries_ = r.named_entries_ ∧
    (∀ other, other ≠ key → (r.erase key).get_impl other = r.get_impl other) := by
  refine ⟨rfl, put_impl_of_mem r key val, ?_, ?_, get_impl_erase_self r key, ?_,
    fun other h => get_impl_erase_ne r key other h⟩
  · intro a ha hkey
    subst ha
    rw [put_impl_of_not_mem r key a hkey]
    refine ⟨?_, rfl, rfl, ?_⟩
    · rw [get_impl_eq]
      simp only [value_at_emplace_self _ _ _ hkey, Option.getD_some]
    · intro other hne
      rw [get_impl_eq, get_impl_eq]
      simp only [value_at_emplace_ne _ _ _ _ hne]
  · intro hkey
    rw [get_impl_eq, (value_at_eq_none_iff _ _).mpr hkey]
    rfl
  · rw [erase_eq]

/-- Witness for C24: in the sample registry id 1 is taken, so a second actor
is not stored under it, and id 3 is free. -/
theorem put_impl_first_writer_wins_witness :
    sample.put_impl 1 (some 99) = (sample, none) ∧
    (sample.put_impl 3 (some 99)).1.get_impl 3 = some 99 ∧
    (sample.put_impl 3 (some 99)).2 = some (99, 3) ∧
    sample.get_impl 3 = none :=
  ⟨(put_impl_first_writer_wins sample 1 (some 99)).2.1 (by decide),
    ((put_impl_first_writer_wins sample 3 (some 99)).2.2.1 99 rfl (by decide)).1,
    ((put_impl_first_writer_wins sample 3 (some 99)).2.2.1 99 rfl (by decide)).2.1,
    (put_impl_first_writer_wins sample 3 (some 99)).2.2.2.1 (by decide)⟩

/-- C25: in the name-keyed registry `put_impl(name, nullptr)` is
`erase(name)`, after which `get_impl(name)` returns null and every other name
is unchanged; `put_impl(name, value)` with a non-null value inserts only when
`name` is absent: a bound name keeps its binding and `get_impl(name)` still
returns the old actor, an absent name is bound to `value`; `named_actors()`
returns a map equal to the current bindings. -/
theorem put_impl_name_keeps_binding (r : actor_registry) (name : String) (a : Nat) :
    r.put_impl_name name none = r.erase_name name ∧
    (r.put_impl_name name none).get_impl_name name = none ∧
    (∀ other, other ≠ name →
      (r.put_impl_name name none).get_impl_name other = r.get_impl_name other) ∧
    (name ∈ r.named_entries_.entries.map Prod.fst →
      r.put_impl_name name (some a) = r ∧
      (r.put_impl_name name (some a)).get_impl_name name = r.get_impl_name name) ∧
    (name ∉ r.named_entries_.entries.map Prod.fst →
      (r.put_impl_name name (some a)).get_impl_name name = some a) ∧
    (∀ other, other ≠ name →
      (r.put_impl_name name (some a)).get_impl_name other = r.get_impl_name other) ∧
    r.named_actors = r.named_entries_ ∧
    (∀ key, (value_at r.named_actors.entries key).getD none = r.get_impl_name key) := by
  have hnull : r.put_impl_name name none = r.erase_name name := by
    simp [put_impl_name]
  have hsome : r.put_impl_name name (some a)
      = { r with named_entries_ := (r.named_entries_.emplace name (some a)).1 } := by
    simp [put_impl_name]
  refine ⟨hnull, ?_, ?_, ?_, ?_, ?_, rfl, fun key => (get_impl_name_eq r key).symm⟩
  · rw [hnull]
    exact get_impl_name_erase_self r name
  · intro other hne
    rw [hnull]
    exact get_impl_name_erase_ne r name other hne
  · intro hmem
    have hr : r.put_impl_name name (some a) = r := by
      rw [hsome, emplace_of_mem _ _ _ hmem]
    exact ⟨hr, by rw [hr]⟩
  · intro hmem
    rw [hsome, get_impl_name_eq]
    simp only [value_at_emplace_self _ _ _ hmem, Option.getD_some]
  · intro other hne
    rw [hsome, get_impl_name_eq, get_impl_name_eq]
    simp only [value_at_emplace_ne _ _ _ _ hne]

/-- Witness for C25: in the sample registry the name "a" is bound to actor 10
and keeps it, and the name "b" is free. -/
theorem put_impl_name_keeps_binding_witness :
    sample.put_impl_name "a" (some 5) = sample ∧
    (sample.put_impl_name "a" (some 5)).get_impl_name "a" = sample.get_impl_name "a" ∧
    (sample.put_impl_name "b" (some 5)).get_impl_name "b" = some 5 :=
  ⟨((put_impl_name_keeps_binding sample "a" 5).2.2.2.1 (by decide)).1,
    ((put_impl_name_keeps_binding sample "a" 5).2.2.2.1 (by decide)).2,
    (put_impl_name_keeps_binding sample "b" 5).2.2.2.2.1 (by decide)⟩

end caf.actor_registry
